import Mathlib

/-!
Verification development for the resonantrabbit unified-diff core.

The repository itself contains only thin demo/test code (`main.py`,
`test_unidiff_parsing.py`) driving an external unified-diff library, so the
parsing engine, patch model and serializer that the specification describes
are modelled here from the specification text (sections 3, 4.1-4.6, 6, 7).
Input text is embedded as an ordered sequence of lines, each line a
`List Char` (section 6 supplies input as an ordered sequence of lines; line
terminators are recorded separately by the loading collaborator and play no
role in the structural rules).
-/

namespace Unidiff

/-- Modelled from the spec: the three roles of a hunk body line (section 3,
"Line.line_type: one of {context, added, removed}"). -/
inductive LineType where
  | context : LineType
  | added : LineType
  | removed : LineType
deriving DecidableEq, Repr

/-- Modelled from the spec: one line of hunk body (section 3, "Line"). -/
structure Line where
  value : List Char
  line_type : LineType
  source_line_no : Option Nat
  target_line_no : Option Nat
  is_no_newline : Bool
deriving DecidableEq, Repr

/-- Modelled from the spec: one contiguous change region (section 3, "Hunk"). -/
structure Hunk where
  source_start : Nat
  source_length : Nat
  target_start : Nat
  target_length : Nat
  section_header : Option (List Char)
  lines : List Line
deriving DecidableEq, Repr

/-- Modelled from the spec: one file's changes (section 3, "PatchedFile").
Rename/copy metadata and binary-file recognition are outside what the claims
exercise; `is_binary_file` is carried so that file-level classification can
state its non-binary hypothesis. -/
structure PatchedFile where
  source_file : List Char
  target_file : List Char
  is_binary_file : Bool
  hunks : List Hunk
deriving DecidableEq, Repr

/-- Modelled from the spec: a PatchSet is an ordered sequence of PatchedFile
(section 3). -/
abbrev PatchSet := List PatchedFile

/-- Modelled from the spec: error kinds of section 7 (EncodingError belongs to
the loading collaborator, not this core). -/
inductive ErrKind where
  | MalformedHunkHeader : ErrKind
  | MalformedLine : ErrKind
  | HunkLengthMismatch : ErrKind
  | UnexpectedEndOfInput : ErrKind
deriving DecidableEq, Repr

/-- Modelled from the spec: `ParseError{kind, line_number, message}`
(section 6); `line_number` is 1-based (section 7). -/
structure ParseError where
  kind : ErrKind
  line_number : Nat
  message : List Char
deriving DecidableEq, Repr

/-- The literal marker text `\ No newline at end of file` (section 4.1). -/
def noNewlineMarker : List Char := ("\\ No newline at end of file").data

/-- Boolean line-type testers (query surface, section 4.5). -/
def Line.is_added (l : Line) : Bool :=
  match l.line_type with | .added => true | _ => false

def Line.is_removed (l : Line) : Bool :=
  match l.line_type with | .removed => true | _ => false

def Line.is_context (l : Line) : Bool :=
  match l.line_type with | .context => true | _ => false

/-- Count of context lines in a line list. -/
def ctxCount (ls : List Line) : Nat := (ls.filter Line.is_context).length

/-- Count of added lines in a line list. -/
def addCount (ls : List Line) : Nat := (ls.filter Line.is_added).length

/-- Count of removed lines in a line list. -/
def remCount (ls : List Line) : Nat := (ls.filter Line.is_removed).length

/-- Modelled from the spec: per-hunk added-line count (sections 3, 4.5). -/
def Hunk.addedCount (h : Hunk) : Nat := addCount h.lines

/-- Modelled from the spec: per-hunk removed-line count (sections 3, 4.5). -/
def Hunk.removedCount (h : Hunk) : Nat := remCount h.lines

/-- Modelled from the spec: `PatchedFile.added` is the sum of added-line
counts across all hunks, recomputed on demand from the hunks and never stored
independently (section 3). -/
def PatchedFile.added (f : PatchedFile) : Nat :=
  (f.hunks.map Hunk.addedCount).sum

/-- Modelled from the spec: `PatchedFile.removed`, as `added` (section 3). -/
def PatchedFile.removed (f : PatchedFile) : Nat :=
  (f.hunks.map Hunk.removedCount).sum

/-- The `/dev/null` path (section 6). -/
def devNull : List Char := ("/dev/null").data

/-- Modelled from the spec: source path `/dev/null` signals file addition
(sections 3, 6). -/
def PatchedFile.is_added_file (f : PatchedFile) : Bool :=
  f.source_file = devNull

/-- Modelled from the spec: target path `/dev/null` signals file removal
(sections 3, 6); the source-side `/dev/null` test takes precedence so the
file-level classifications stay mutually exclusive (section 3 invariant). -/
def PatchedFile.is_removed_file (f : PatchedFile) : Bool :=
  ¬ (f.source_file = devNull) ∧ f.target_file = devNull

/-- Modelled from the spec: a file that is neither added nor removed is
modified (section 3 invariant). -/
def PatchedFile.is_modified_file (f : PatchedFile) : Bool :=
  ¬ (f.source_file = devNull) ∧ ¬ (f.target_file = devNull)

/-- Modelled from the spec: derived canonical path, target path unless the
file was removed (section 3). -/
def PatchedFile.path (f : PatchedFile) : List Char :=
  if f.is_removed_file then f.source_file else f.target_file

/-- Modelled from the spec: the Line Classifier (section 4.1): given a raw
body line, prefix `' '` is context, `'+'` added, `'-'` removed, the prefix
character is stripped from the value; any other leading character is a
protocol error `MalformedLine`. -/
def classifyLine : List Char → Except ErrKind (LineType × List Char)
  | [] => .error .MalformedLine
  | c :: rest =>
    if c = ' ' then .ok (.context, rest)
    else if c = '+' then .ok (.added, rest)
    else if c = '-' then .ok (.removed, rest)
    else .error .MalformedLine

/-- Is `c` a decimal digit? -/
def isDig (c : Char) : Bool := '0' ≤ c && c ≤ '9'

/-- Numeric value of a digit string (most significant first), accumulator
form. -/
def digitsValFrom (i : Nat) : List Char → Nat
  | [] => i
  | c :: cs => digitsValFrom (10 * i + (c.toNat - 48)) cs

/-- Numeric value of a digit string. -/
def digitsVal (ds : List Char) : Nat := digitsValFrom 0 ds

/-- The decimal digit character for `n < 10`. -/
def digitChar : Nat → Char
  | 0 => '0' | 1 => '1' | 2 => '2' | 3 => '3' | 4 => '4'
  | 5 => '5' | 6 => '6' | 7 => '7' | 8 => '8' | _ => '9'

/-- Decimal representation of a natural number, fuel-based accumulator form
(the fuel keeps the recursion structural; `n + 1` units always suffice). -/
def natReprGo : Nat → Nat → List Char → List Char
  | 0, n, acc => digitChar n :: acc
  | fuel + 1, n, acc =>
    if n < 10 then digitChar n :: acc
    else natReprGo fuel (n / 10) (digitChar (n % 10) :: acc)

/-- Decimal representation of a natural number. -/
def natRepr (n : Nat) : List Char := natReprGo n n []

/-- Parse `<digits>[,<digits>]`, the range part of a hunk header (section
4.2); a missing `,<len>` defaults the length to 1.  Returns
`(start, length, rest-of-line)` or `none` when the leading numeric field is
missing or a `,` is not followed by digits. -/
def parseNum (l : List Char) : Option (Nat × List Char) :=
  if l.takeWhile isDig = [] then none
  else some (digitsVal (l.takeWhile isDig), l.dropWhile isDig)

def parseRange (l : List Char) : Option (Nat × Nat × List Char) :=
  match parseNum l with
  | none => none
  | some (a, rest) =>
    if rest.head? = some ',' then
      match parseNum rest.tail with
      | none => none
      | some (b, rest2) => some (a, b, rest2)
    else some (a, 1, rest)

/-- Result of the Hunk Header Grammar (section 4.2). -/
structure HunkHdr where
  source_start : Nat
  source_length : Nat
  target_start : Nat
  target_length : Nat
  section_header : Option (List Char)
deriving DecidableEq, Repr

/-- Modelled from the spec: the Hunk Header Grammar (section 4.2): parse
`@@ -<start>[,<len>] +<start>[,<len>] @@[ <header>]`.  Missing `,<len>`
defaults length to 1.  Fails (kind `MalformedHunkHeader`) if the two `@@`
markers or the leading `-`/`+` signs are missing, if a numeric field is not a
non-negative integer, or if `start > 0` is inconsistent with `length == 0`. -/
def parseHunkHeader (l : List Char) : Except (ErrKind × List Char) HunkHdr :=
  match l with
  | '@' :: '@' :: ' ' :: '-' :: rest =>
    match parseRange rest with
    | none => .error (.MalformedHunkHeader, ("bad source range").data)
    | some (ss, sl, rest1) =>
      match rest1 with
      | ' ' :: '+' :: rest2 =>
        match parseRange rest2 with
        | none => .error (.MalformedHunkHeader, ("bad target range").data)
        | some (ts, tl, rest3) =>
          match rest3 with
          | ' ' :: '@' :: '@' :: rest4 =>
            if (0 < ss ∧ sl = 0) ∨ (0 < ts ∧ tl = 0) then
              .error (.MalformedHunkHeader, ("start inconsistent with zero length").data)
            else
              match rest4 with
              | [] => .ok ⟨ss, sl, ts, tl, none⟩
              | ' ' :: hdr => .ok ⟨ss, sl, ts, tl, some hdr⟩
              | _ => .error (.MalformedHunkHeader, ("junk after second marker").data)
          | _ => .error (.MalformedHunkHeader, ("second marker missing").data)
      | _ => .error (.MalformedHunkHeader, ("plus sign missing").data)
  | _ => .error (.MalformedHunkHeader, ("markers or minus sign missing").data)

/-- Modelled from the spec: a hunk in progress inside the Patch Builder
(section 4.4): the explicit per-hunk local state, remaining counters and
running line-number counters, together with the declared header fields and
the 1-based input line of the `@@` header (for error reporting). -/
structure CurHunk where
  source_start : Nat
  source_length : Nat
  target_start : Nat
  target_length : Nat
  section_header : Option (List Char)
  startLine : Nat
  remaining_source : Nat
  remaining_target : Nat
  next_source : Nat
  next_target : Nat
  lines : List Line
deriving DecidableEq, Repr

/-- Modelled from the spec: the file currently open in the Patch Builder. -/
structure CurFile where
  source_file : List Char
  target_file : List Char
  hunks : List Hunk
deriving DecidableEq, Repr

/-- Modelled from the spec: the Patch Builder states of section 4.4:
`ExpectFileOrEnd`, `ExpectHunkOrFileOrEnd` (a file open, no hunk), and
`InHunk` (counters live inside `CurHunk`). -/
inductive BState where
  | expectFile : BState
  | inFile : CurFile → BState
  | inHunk : CurFile → CurHunk → BState
deriving DecidableEq, Repr

/-- Close a finished in-progress hunk into a model `Hunk`. -/
def closeHunk (ch : CurHunk) : Hunk :=
  ⟨ch.source_start, ch.source_length, ch.target_start, ch.target_length,
   ch.section_header, ch.lines⟩

/-- Append a closed hunk to the open file. -/
def addHunk (cf : CurFile) (ch : CurHunk) : CurFile :=
  { cf with hunks := cf.hunks ++ [closeHunk ch] }

/-- Close the open file into a model `PatchedFile`. -/
def closeFile (cf : CurFile) : PatchedFile :=
  ⟨cf.source_file, cf.target_file, false, cf.hunks⟩

/-- Open a fresh file from a `---`/`+++` header pair. -/
def newFile (src tgt : List Char) : CurFile := ⟨src, tgt, []⟩

/-- Open a fresh in-progress hunk from a parsed header at input line `n`:
remaining counters start at the declared lengths, the running line-number
counters at the declared starts (section 4.4). -/
def openHunk (hh : HunkHdr) (n : Nat) : CurHunk :=
  ⟨hh.source_start, hh.source_length, hh.target_start, hh.target_length,
   hh.section_header, n, hh.source_length, hh.target_length,
   hh.source_start, hh.target_start, []⟩

/-- How far one line advances the source-side running counter: context and
removed lines consume a source line, added lines do not (section 4.4). -/
def srcStep : LineType → Nat
  | .context => 1
  | .added => 0
  | .removed => 1

/-- How far one line advances the target-side running counter. -/
def tgtStep : LineType → Nat
  | .context => 1
  | .added => 1
  | .removed => 0

/-- The Line the builder appends for a classified body line: running line
numbers are attached on the sides the line belongs to and absent otherwise
(section 3). -/
def builtLine (ch : CurHunk) (ty : LineType) (v : List Char) : Line :=
  match ty with
  | .context => ⟨v, .context, some ch.next_source, some ch.next_target, false⟩
  | .added => ⟨v, .added, none, some ch.next_target, false⟩
  | .removed => ⟨v, .removed, some ch.next_source, none, false⟩

/-- The in-progress hunk after appending one body line: the new line is
appended, the remaining counters are decremented on the sides the line
belongs to, and the running line-number counters advance (section 4.4). -/
def chAppend (ch : CurHunk) (ty : LineType) (v : List Char) : CurHunk :=
  { ch with
    lines := ch.lines ++ [builtLine ch ty v],
    remaining_source := ch.remaining_source - srcStep ty,
    remaining_target := ch.remaining_target - tgtStep ty,
    next_source := ch.next_source + srcStep ty,
    next_target := ch.next_target + tgtStep ty }

/-- Does the raw line begin a source-file header (`--- `)?  Section 4.3. -/
def isSrcHdr (l : List Char) : Bool := decide (l.take 4 = ("--- ").data)

/-- Does the raw line begin a target-file header (`+++ `)? -/
def isTgtHdr (l : List Char) : Bool := decide (l.take 4 = ("+++ ").data)

/-- Does the raw line look like a hunk header (`@@ ` prefix)?  Section 4.3. -/
def isHunkHdrLine (l : List Char) : Bool := decide (l.take 3 = ("@@ ").data)

/-- The path carried by a `--- `/`+++ ` header line (everything after the
four-character prefix; section 3 keeps it exactly as it appeared). -/
def hdrPath (l : List Char) : List Char := l.drop 4

/-- Modelled from the spec: Patch Builder step on one non-file-header token at
input line `n` (section 4.4).  Hunk headers open a hunk (closing a complete
previous one); the no-newline marker flags the most recently appended line;
body lines are classified by section 4.1 and decrement the remaining
counters (context both, added target only, removed source only); a body line
arriving when its counter is already exhausted is a `HunkLengthMismatch`;
unrecognized lines outside a hunk are inter-file noise and are skipped
(section 4.3). -/
def step1 (l : List Char) (n : Nat) (st : BState) : Except ParseError BState :=
  match st with
  | .expectFile => .ok .expectFile
  | .inFile cf =>
    if isHunkHdrLine l then
      match parseHunkHeader l with
      | .error (k, m) => .error ⟨k, n, m⟩
      | .ok hh => .ok (.inHunk cf (openHunk hh n))
    else .ok (.inFile cf)
  | .inHunk cf ch =>
    if isHunkHdrLine l then
      if ch.remaining_source = 0 ∧ ch.remaining_target = 0 then
        match parseHunkHeader l with
        | .error (k, m) => .error ⟨k, n, m⟩
        | .ok hh => .ok (.inHunk (addHunk cf ch) (openHunk hh n))
      else
        .error ⟨.HunkLengthMismatch, ch.startLine, ("hunk under-filled before next hunk header").data⟩
    else if l = noNewlineMarker then
      match ch.lines.getLast? with
      | none => .error ⟨.MalformedLine, n, ("marker with no preceding line").data⟩
      | some lst =>
        .ok (.inHunk cf { ch with
          lines := ch.lines.dropLast ++ [{ lst with is_no_newline := true }] })
    else
      match classifyLine l with
      | .error k => .error ⟨k, n, ("unrecognized body line prefix").data⟩
      | .ok (ty, v) =>
        if srcStep ty ≤ ch.remaining_source ∧ tgtStep ty ≤ ch.remaining_target then
          .ok (.inHunk cf (chAppend ch ty v))
        else .error ⟨.HunkLengthMismatch, n, ("body line exceeds declared hunk length").data⟩

/-- Modelled from the spec: Patch Builder step on a `FileHeader` token
(section 4.4): a FileHeader while `InHunk` with nonzero remaining counters is
a `HunkLengthMismatch` referencing the hunk's start line; otherwise any
complete hunk and the open file are closed and a fresh file opens. -/
def fileStep (src tgt : List Char) (acc : List PatchedFile) (st : BState) :
    Except ParseError (List PatchedFile × BState) :=
  match st with
  | .expectFile => .ok (acc, .inFile (newFile src tgt))
  | .inFile cf => .ok (acc ++ [closeFile cf], .inFile (newFile src tgt))
  | .inHunk cf ch =>
    if ch.remaining_source = 0 ∧ ch.remaining_target = 0 then
      .ok (acc ++ [closeFile (addHunk cf ch)], .inFile (newFile src tgt))
    else
      .error ⟨.HunkLengthMismatch, ch.startLine, ("hunk under-filled at file header").data⟩

/-- Modelled from the spec: end of input (section 4.4): valid only if no hunk
is left with nonzero counters; a document ending mid-hunk is
`UnexpectedEndOfInput` (section 7). -/
def finish (acc : List PatchedFile) (st : BState) : Except ParseError PatchSet :=
  match st with
  | .expectFile => .ok acc
  | .inFile cf => .ok (acc ++ [closeFile cf])
  | .inHunk cf ch =>
    if ch.remaining_source = 0 ∧ ch.remaining_target = 0 then
      .ok (acc ++ [closeFile (addHunk cf ch)])
    else
      .error ⟨.UnexpectedEndOfInput, ch.startLine, ("document ends mid-hunk").data⟩

/-- Modelled from the spec: Scanner plus Patch Builder over the remaining
lines (sections 4.3, 4.4).  A file boundary is a line beginning `--- `
immediately followed by a line beginning `+++ ` (the scanner's FileHeader
token, consuming both lines); every other line is a single token handled by
`step1`.  `n` is the 1-based input line number of the first remaining line,
`acc` the files completed so far. -/
def build : List (List Char) → Nat → List PatchedFile → BState →
    Except ParseError PatchSet
  | [], _, acc, st => finish acc st
  | [l], n, acc, st =>
    match step1 l n st with
    | .error e => .error e
    | .ok st' => build [] (n + 1) acc st'
  | l1 :: l2 :: rest, n, acc, st =>
    if isSrcHdr l1 && isTgtHdr l2 then
      match fileStep (hdrPath l1) (hdrPath l2) acc st with
      | .error e => .error e
      | .ok (acc', st') => build rest (n + 2) acc' st'
    else
      match step1 l1 n st with
      | .error e => .error e
      | .ok st' => build (l2 :: rest) (n + 1) acc st'

/-- Modelled from the spec: `parse(text) -> PatchSet` (section 6), over text
supplied as an ordered sequence of lines. -/
def parse (input : List (List Char)) : Except ParseError PatchSet :=
  build input 1 [] .expectFile

/-- The raw diff-body line of a Line: one-character prefix plus value
(section 4.1 in reverse). -/
def rawOf (l : Line) : List Char :=
  match l.line_type with
  | .context => ' ' :: l.value
  | .added => '+' :: l.value
  | .removed => '-' :: l.value

/-- Serialized form of one Line: its prefixed raw line, followed by the
no-newline marker when flagged (sections 4.1, 4.6). -/
def serializeLine (l : Line) : List (List Char) :=
  rawOf l :: (if l.is_no_newline then [noNewlineMarker] else [])

/-- A canonical hunk header line `@@ -ss,sl +ts,tl @@[ header]`. -/
def mkHdrLine (ss sl ts tl : Nat) (sh : Option (List Char)) : List Char :=
  '@' :: '@' :: ' ' :: '-' ::
    (natRepr ss ++ ',' :: (natRepr sl ++
      ' ' :: '+' :: (natRepr ts ++ ',' :: (natRepr tl ++
        ' ' :: '@' :: '@' ::
          (match sh with
           | none => []
           | some hdr => ' ' :: hdr)))))

/-- Canonical hunk header line; lengths are recomputed from the actual line
set, never copied from input (section 4.6). -/
def hunkHdrLine (h : Hunk) : List Char :=
  mkHdrLine h.source_start (ctxCount h.lines + remCount h.lines)
    h.target_start (ctxCount h.lines + addCount h.lines) h.section_header

/-- Serialized form of one Hunk. -/
def serializeHunk (h : Hunk) : List (List Char) :=
  hunkHdrLine h :: (h.lines.map serializeLine).flatten

/-- Serialized form of one PatchedFile: its `---`/`+++` header pair followed
by its hunks (section 4.6). -/
def serializeFile (f : PatchedFile) : List (List Char) :=
  ('-' :: '-' :: '-' :: ' ' :: f.source_file) ::
  ('+' :: '+' :: '+' :: ' ' :: f.target_file) ::
  (f.hunks.map serializeHunk).flatten

/-- Modelled from the spec: `serialize(PatchSet) -> text` (sections 4.6, 6),
as an ordered sequence of lines. -/
def serialize (ps : PatchSet) : List (List Char) :=
  (ps.map serializeFile).flatten

/-! ### Structural invariants of the patch model -/

/-- Source-side line count: context plus removed lines (section 3). -/
def srcCnt (ls : List Line) : Nat := ctxCount ls + remCount ls

/-- Target-side line count: context plus added lines (section 3). -/
def tgtCnt (ls : List Line) : Nat := ctxCount ls + addCount ls

/-- The line-number fields one single line must carry when the source-side
running counter is at `s` and the target-side counter at `t` (section 3):
present for context/removed (source) and context/added (target), absent
otherwise. -/
def lineAt (s t : Nat) (l : Line) : Prop :=
  match l.line_type with
  | .context => l.source_line_no = some s ∧ l.target_line_no = some t
  | .added => l.source_line_no = none ∧ l.target_line_no = some t
  | .removed => l.source_line_no = some s ∧ l.target_line_no = none

/-- The whole line list carries running-counter line numbers from `(s, t)`. -/
def linesNumbered : Nat → Nat → List Line → Prop
  | _, _, [] => True
  | s, t, l :: ls =>
    lineAt s t l ∧ linesNumbered (s + srcStep l.line_type) (t + tgtStep l.line_type) ls

/-- Does a value begin with `-- ` (so that its removed-line serialization
begins with `--- `)? -/
def valSrcish (v : List Char) : Bool := decide (v.take 3 = ("-- ").data)

/-- Does a value begin with `++ ` (so that its added-line serialization
begins with `+++ `)? -/
def valTgtish (v : List Char) : Bool := decide (v.take 3 = ("++ ").data)

/-- A line whose serialization is a `--- `-shaped raw line not followed by a
no-newline marker. -/
def hazSrc (l : Line) : Bool := l.is_removed && valSrcish l.value && !l.is_no_newline

/-- A line whose serialization is a `+++ `-shaped raw line. -/
def hazTgt (l : Line) : Bool := l.is_added && valTgtish l.value

/-- No two serialized-adjacent body lines of the hunk mimic a `--- `/`+++ `
file-header pair (such a pair is recognized as a FileHeader by the Scanner,
section 4.3, and hence can never sit inside a parsed hunk body). -/
def noAmb (ls : List Line) : Prop :=
  List.Chain' (fun a b => ¬(hazSrc a = true ∧ hazTgt b = true)) ls

/-- Invariants of an in-progress hunk (section 4.4): counters account for the
lines already taken, running line numbers follow from the declared starts,
and the declared header passed the section 4.2 consistency check. -/
structure ChInv (ch : CurHunk) : Prop where
  srcTotal : srcCnt ch.lines + ch.remaining_source = ch.source_length
  tgtTotal : tgtCnt ch.lines + ch.remaining_target = ch.target_length
  numbered : linesNumbered ch.source_start ch.target_start ch.lines
  nextSrc : ch.next_source = ch.source_start + srcCnt ch.lines
  nextTgt : ch.next_target = ch.target_start + tgtCnt ch.lines
  hdrSrcOk : 0 < ch.source_start → ch.source_length ≠ 0
  hdrTgtOk : 0 < ch.target_start → ch.target_length ≠ 0
  amb : noAmb ch.lines
  startPos : 1 ≤ ch.startLine

/-- Invariants of a completed hunk: the length invariant of section 3, the
running line numbers, the header consistency and the no-mimicry property. -/
structure HunkInv (h : Hunk) : Prop where
  srcLen : srcCnt h.lines = h.source_length
  tgtLen : tgtCnt h.lines = h.target_length
  numbered : linesNumbered h.source_start h.target_start h.lines
  hdrSrcOk : 0 < h.source_start → h.source_length ≠ 0
  hdrTgtOk : 0 < h.target_start → h.target_length ≠ 0
  amb : noAmb h.lines

/-- Invariants of a completed file: built non-binary with valid hunks. -/
def FileInv (f : PatchedFile) : Prop :=
  f.is_binary_file = false ∧ ∀ h ∈ f.hunks, HunkInv h

/-- A fully valid PatchSet (what `parse` promises, sections 4.4, 7, 8). -/
def PSInv (ps : PatchSet) : Prop := ∀ f ∈ ps, FileInv f

/-- Invariants of the file currently open in the builder. -/
def CFInv (cf : CurFile) : Prop := ∀ h ∈ cf.hunks, HunkInv h

/-- Invariants of a builder state. -/
def StInv : BState → Prop
  | .expectFile => True
  | .inFile cf => CFInv cf
  | .inHunk cf ch => CFInv cf ∧ ChInv ch

/-- Does the line list end in a `hazSrc` line? -/
def lastHaz (ls : List Line) : Prop := ∃ l, ls.getLast? = some l ∧ hazSrc l = true

/-- Relation between the builder state and the next raw line: if the hunk
body built so far ends in a `--- `-shaped raw line (with no marker after it),
the upcoming raw line cannot be `+++ `-shaped — otherwise the Scanner would
have recognized the pair as a FileHeader when that body line was consumed. -/
def PendHead : BState → List Char → Prop
  | .inHunk _ ch, l => lastHaz ch.lines → isTgtHdr l = false
  | _, _ => True

/-- `PendHead` for the head of the remaining input, when it exists. -/
def PendOk (st : BState) (lines : List (List Char)) : Prop :=
  ∀ l, lines.head? = some l → PendHead st l

/-! ### Basic lemmas: counts, numbering, classification -/

theorem ctxCount_append (a b : List Line) :
    ctxCount (a ++ b) = ctxCount a + ctxCount b := by
  simp [ctxCount, List.filter_append]

theorem addCount_append (a b : List Line) :
    addCount (a ++ b) = addCount a + addCount b := by
  simp [addCount, List.filter_append]

theorem remCount_append (a b : List Line) :
    remCount (a ++ b) = remCount a + remCount b := by
  simp [remCount, List.filter_append]

theorem srcCnt_append (a b : List Line) : srcCnt (a ++ b) = srcCnt a + srcCnt b := by
  simp [srcCnt, ctxCount_append, remCount_append]; omega

theorem tgtCnt_append (a b : List Line) : tgtCnt (a ++ b) = tgtCnt a + tgtCnt b := by
  simp [tgtCnt, ctxCount_append, addCount_append]; omega

theorem srcCnt_singleton (l : Line) : srcCnt [l] = srcStep l.line_type := by
  cases h : l.line_type <;>
    simp [srcCnt, ctxCount, remCount, List.filter, Line.is_context, Line.is_removed, h, srcStep]

theorem tgtCnt_singleton (l : Line) : tgtCnt [l] = tgtStep l.line_type := by
  cases h : l.line_type <;>
    simp [tgtCnt, ctxCount, addCount, List.filter, Line.is_context, Line.is_added, h, tgtStep]

theorem srcCnt_cons (l : Line) (ls : List Line) :
    srcCnt (l :: ls) = srcStep l.line_type + srcCnt ls := by
  have := srcCnt_append [l] ls
  simpa [srcCnt_singleton] using this

theorem tgtCnt_cons (l : Line) (ls : List Line) :
    tgtCnt (l :: ls) = tgtStep l.line_type + tgtCnt ls := by
  have := tgtCnt_append [l] ls
  simpa [tgtCnt_singleton] using this

theorem linesNumbered_append (a b : List Line) (s t : Nat) :
    linesNumbered s t (a ++ b) ↔
      linesNumbered s t a ∧ linesNumbered (s + srcCnt a) (t + tgtCnt a) b := by
  induction a generalizing s t with
  | nil => simp [linesNumbered, srcCnt, tgtCnt, ctxCount, addCount, remCount]
  | cons l a ih =>
    have e1 : linesNumbered s t ((l :: a) ++ b) ↔
        lineAt s t l ∧ linesNumbered (s + srcStep l.line_type) (t + tgtStep l.line_type) (a ++ b) :=
      Iff.rfl
    have e2 : linesNumbered s t (l :: a) ↔
        lineAt s t l ∧ linesNumbered (s + srcStep l.line_type) (t + tgtStep l.line_type) a :=
      Iff.rfl
    rw [e1, e2, ih, srcCnt_cons, tgtCnt_cons, and_assoc]
    constructor
    · rintro ⟨h1, h2, h3⟩
      exact ⟨h1, h2, by simpa [Nat.add_assoc] using h3⟩
    · rintro ⟨h1, h2, h3⟩
      exact ⟨h1, h2, by simpa [Nat.add_assoc] using h3⟩

/-- The flag set by the no-newline marker plays no role in line typing. -/
theorem is_context_setFlag (l : Line) (b : Bool) :
    Line.is_context { l with is_no_newline := b } = Line.is_context l := rfl

theorem is_added_setFlag (l : Line) (b : Bool) :
    Line.is_added { l with is_no_newline := b } = Line.is_added l := rfl

theorem is_removed_setFlag (l : Line) (b : Bool) :
    Line.is_removed { l with is_no_newline := b } = Line.is_removed l := rfl

theorem lineAt_setFlag (s t : Nat) (l : Line) (b : Bool) :
    lineAt s t { l with is_no_newline := b } ↔ lineAt s t l := by
  cases l with
  | mk v ty sn tn nl => cases ty <;> simp [lineAt]

theorem classifyLine_eq_ok (l : List Char) (ty : LineType) (v : List Char)
    (h : classifyLine l = .ok (ty, v)) :
    l = (match ty with
         | .context => ' ' :: v
         | .added => '+' :: v
         | .removed => '-' :: v) := by
  match l with
  | [] => simp [classifyLine] at h
  | c :: rest =>
    by_cases h1 : c = ' '
    · simp [classifyLine, h1] at h
      obtain ⟨h2, h3⟩ := h
      subst h1; cases h2; subst h3; rfl
    · by_cases h2 : c = '+'
      · simp [classifyLine, h1, h2] at h
        obtain ⟨h3, h4⟩ := h
        subst h2; cases h3; subst h4; rfl
      · by_cases h3 : c = '-'
        · simp [classifyLine, h1, h2, h3] at h
          obtain ⟨h4, h5⟩ := h
          subst h3; cases h4; subst h5; rfl
        · simp [classifyLine, h1, h2, h3] at h

/-! ### Lemmas about line-shape tests -/

theorem isSrcHdr_iff (l : List Char) : isSrcHdr l = true ↔ l.take 4 = ("--- ").data := by
  simp [isSrcHdr]

theorem isTgtHdr_iff (l : List Char) : isTgtHdr l = true ↔ l.take 4 = ("+++ ").data := by
  simp [isTgtHdr]

theorem isHunkHdrLine_iff (l : List Char) : isHunkHdrLine l = true ↔ l.take 3 = ("@@ ").data := by
  simp [isHunkHdrLine]

theorem take_cons_eq (c : Char) (v : List Char) (k : Nat) :
    (c :: v).take (k + 1) = c :: v.take k := rfl

theorem isSrcHdr_cons4 (p : List Char) : isSrcHdr ('-' :: '-' :: '-' :: ' ' :: p) = true := by
  simp [isSrcHdr, List.take]

theorem isTgtHdr_cons4 (p : List Char) : isTgtHdr ('+' :: '+' :: '+' :: ' ' :: p) = true := by
  simp [isTgtHdr, List.take]

theorem isSrcHdr_cons_ne (c : Char) (v : List Char) (hc : c ≠ '-') :
    isSrcHdr (c :: v) = false := by
  simp only [isSrcHdr, decide_eq_false_iff_not]
  intro h
  rw [take_cons_eq c v 3] at h
  exact hc (List.cons.inj h).1

theorem isSrcHdr_space (v : List Char) : isSrcHdr (' ' :: v) = false :=
  isSrcHdr_cons_ne ' ' v (by decide)

theorem isSrcHdr_plus (v : List Char) : isSrcHdr ('+' :: v) = false :=
  isSrcHdr_cons_ne '+' v (by decide)

theorem isSrcHdr_hdrLine (v : List Char) : isSrcHdr ('@' :: v) = false :=
  isSrcHdr_cons_ne '@' v (by decide)

theorem isSrcHdr_dash (v : List Char) : isSrcHdr ('-' :: v) = valSrcish v := by
  rcases hb : valSrcish v with _ | _
  · simp only [valSrcish, decide_eq_false_iff_not] at hb
    simp only [isSrcHdr, decide_eq_false_iff_not]
    intro h
    rw [take_cons_eq '-' v 3] at h
    exact hb (List.cons.inj h).2
  · simp only [valSrcish, decide_eq_true_eq] at hb
    simp only [isSrcHdr, decide_eq_true_eq]
    rw [take_cons_eq '-' v 3, hb]

theorem isTgtHdr_cons_ne (c : Char) (v : List Char) (hc : c ≠ '+') :
    isTgtHdr (c :: v) = false := by
  simp only [isTgtHdr, decide_eq_false_iff_not]
  intro h
  rw [take_cons_eq c v 3] at h
  exact hc (List.cons.inj h).1

theorem isTgtHdr_space (v : List Char) : isTgtHdr (' ' :: v) = false :=
  isTgtHdr_cons_ne ' ' v (by decide)

theorem isTgtHdr_dash (v : List Char) : isTgtHdr ('-' :: v) = false :=
  isTgtHdr_cons_ne '-' v (by decide)

theorem isTgtHdr_plus (v : List Char) : isTgtHdr ('+' :: v) = valTgtish v := by
  rcases hb : valTgtish v with _ | _
  · simp only [valTgtish, decide_eq_false_iff_not] at hb
    simp only [isTgtHdr, decide_eq_false_iff_not]
    intro h
    rw [take_cons_eq '+' v 3] at h
    exact hb (List.cons.inj h).2
  · simp only [valTgtish, decide_eq_true_eq] at hb
    simp only [isTgtHdr, decide_eq_true_eq]
    rw [take_cons_eq '+' v 3, hb]

theorem isHunkHdrLine_body (c : Char) (v : List Char) (h : c ≠ '@') :
    isHunkHdrLine (c :: v) = false := by
  simp only [isHunkHdrLine, decide_eq_false_iff_not]
  intro hh
  rw [take_cons_eq c v 2] at hh
  exact h (List.cons.inj hh).1

theorem isHunkHdrLine_cons3 (p : List Char) : isHunkHdrLine ('@' :: '@' :: ' ' :: p) = true := by
  simp [isHunkHdrLine, List.take]

theorem marker_head : noNewlineMarker = '\\' :: (" No newline at end of file").data := rfl

theorem marker_ne_space (v : List Char) : (' ' :: v) ≠ noNewlineMarker := by
  rw [marker_head]; intro h; exact absurd (List.cons.inj h).1 (by decide)

theorem marker_ne_plus (v : List Char) : ('+' :: v) ≠ noNewlineMarker := by
  rw [marker_head]; intro h; exact absurd (List.cons.inj h).1 (by decide)

theorem marker_ne_dash (v : List Char) : ('-' :: v) ≠ noNewlineMarker := by
  rw [marker_head]; intro h; exact absurd (List.cons.inj h).1 (by decide)

theorem isHunkHdrLine_marker : isHunkHdrLine noNewlineMarker = false := by decide

theorem isSrcHdr_marker : isSrcHdr noNewlineMarker = false := by decide

theorem isTgtHdr_marker : isTgtHdr noNewlineMarker = false := by decide

/-! ### Hazard-flag lemmas and hunk open/close invariants -/

theorem getLast?_snoc {α : Type} (xs : List α) (x : α) : (xs ++ [x]).getLast? = some x := by
  induction xs with
  | nil => rfl
  | cons y ys ih =>
    rw [List.cons_append, List.getLast?_cons]
    simp [ih]

theorem hazTgt_setFlag (l : Line) (b : Bool) : hazTgt { l with is_no_newline := b } = hazTgt l := rfl

theorem hazSrc_setTrue (l : Line) : hazSrc { l with is_no_newline := true } = false := by
  simp [hazSrc]

theorem closeHunk_inv (ch : CurHunk) (hi : ChInv ch)
    (hs : ch.remaining_source = 0) (ht : ch.remaining_target = 0) :
    HunkInv (closeHunk ch) := by
  refine ⟨?_, ?_, hi.numbered, hi.hdrSrcOk, hi.hdrTgtOk, hi.amb⟩
  · have := hi.srcTotal; simp [closeHunk]; omega
  · have := hi.tgtTotal; simp [closeHunk]; omega

theorem CFInv_addHunk (cf : CurFile) (ch : CurHunk) (hcf : CFInv cf) (hh : HunkInv (closeHunk ch)) :
    CFInv (addHunk cf ch) := by
  intro h hmem
  simp only [addHunk, List.mem_append, List.mem_singleton] at hmem
  rcases hmem with hmem | rfl
  · exact hcf h hmem
  · exact hh

theorem parseHunkHeader_ok_consistent (l : List Char) (hh : HunkHdr)
    (h : parseHunkHeader l = .ok hh) :
    (0 < hh.source_start → hh.source_length ≠ 0) ∧
    (0 < hh.target_start → hh.target_length ≠ 0) := by
  unfold parseHunkHeader at h
  split at h
  case h_2 => simp at h
  split at h
  case h_1 => simp at h
  split at h
  case h_2 => simp at h
  split at h
  case h_1 => simp at h
  split at h
  case h_2 => simp at h
  split at h
  case isTrue => simp at h
  case isFalse hcond =>
    push_neg at hcond
    split at h
    · cases h
      exact ⟨fun hp => (hcond.1 hp), fun hp => (hcond.2 hp)⟩
    · cases h
      exact ⟨fun hp => (hcond.1 hp), fun hp => (hcond.2 hp)⟩
    · simp at h

theorem openHunk_inv (hh : HunkHdr) (n : Nat) (hn : 1 ≤ n)
    (hc1 : 0 < hh.source_start → hh.source_length ≠ 0)
    (hc2 : 0 < hh.target_start → hh.target_length ≠ 0) :
    ChInv (openHunk hh n) := by
  refine ⟨?_, ?_, ?_, ?_, ?_, hc1, hc2, ?_, hn⟩ <;>
    simp [openHunk, srcCnt, tgtCnt, ctxCount, addCount, remCount, linesNumbered, noAmb]

theorem builtLine_type (ch : CurHunk) (ty : LineType) (v : List Char) :
    (builtLine ch ty v).line_type = ty := by
  cases ty <;> rfl

theorem builtLine_flag (ch : CurHunk) (ty : LineType) (v : List Char) :
    (builtLine ch ty v).is_no_newline = false := by
  cases ty <;> rfl

theorem builtLine_value (ch : CurHunk) (ty : LineType) (v : List Char) :
    (builtLine ch ty v).value = v := by
  cases ty <;> rfl

theorem lineAt_builtLine (ch : CurHunk) (ty : LineType) (v : List Char) :
    lineAt ch.next_source ch.next_target (builtLine ch ty v) := by
  cases ty <;> simp [lineAt, builtLine]

theorem ChInv_chAppend (ch : CurHunk) (ty : LineType) (v : List Char)
    (hi : ChInv ch)
    (h1 : srcStep ty ≤ ch.remaining_source) (h2 : tgtStep ty ≤ ch.remaining_target)
    (hjun : ∀ x, ch.lines.getLast? = some x → hazSrc x = true →
      hazTgt (builtLine ch ty v) = false) :
    ChInv (chAppend ch ty v) := by
  have hsc : srcCnt (ch.lines ++ [builtLine ch ty v]) = srcCnt ch.lines + srcStep ty := by
    rw [srcCnt_append, srcCnt_singleton, builtLine_type]
  have htc : tgtCnt (ch.lines ++ [builtLine ch ty v]) = tgtCnt ch.lines + tgtStep ty := by
    rw [tgtCnt_append, tgtCnt_singleton, builtLine_type]
  refine ⟨?_, ?_, ?_, ?_, ?_, hi.hdrSrcOk, hi.hdrTgtOk, ?_, hi.startPos⟩
  · show srcCnt (ch.lines ++ [builtLine ch ty v]) + (ch.remaining_source - srcStep ty) =
      ch.source_length
    have := hi.srcTotal
    omega
  · show tgtCnt (ch.lines ++ [builtLine ch ty v]) + (ch.remaining_target - tgtStep ty) =
      ch.target_length
    have := hi.tgtTotal
    omega
  · show linesNumbered ch.source_start ch.target_start (ch.lines ++ [builtLine ch ty v])
    rw [linesNumbered_append]
    refine ⟨hi.numbered, ?_, trivial⟩
    rw [← hi.nextSrc, ← hi.nextTgt]
    exact lineAt_builtLine ch ty v
  · show ch.next_source + srcStep ty = ch.source_start + srcCnt (ch.lines ++ [builtLine ch ty v])
    rw [hsc, hi.nextSrc]; omega
  · show ch.next_target + tgtStep ty = ch.target_start + tgtCnt (ch.lines ++ [builtLine ch ty v])
    rw [htc, hi.nextTgt]; omega
  · show noAmb (ch.lines ++ [builtLine ch ty v])
    rw [noAmb, List.chain'_append]
    refine ⟨hi.amb, List.chain'_singleton _, ?_⟩
    intro x hx y hy
    simp only [List.head?_cons, Option.mem_def, Option.some.injEq] at hy
    subst hy
    rintro ⟨hhx, hhy⟩
    rw [hjun x hx hhx] at hhy
    exact Bool.false_ne_true hhy

/-- The marker step: the last appended line with its flag set. -/
theorem ChInv_setFlag (ch : CurHunk) (lst : Line)
    (hlast : ch.lines.getLast? = some lst) (hi : ChInv ch) :
    ChInv { ch with lines := ch.lines.dropLast ++ [{ lst with is_no_newline := true }] } := by
  have hdec : ch.lines.dropLast ++ [lst] = ch.lines :=
    List.dropLast_append_getLast? lst hlast
  have htype : ({ lst with is_no_newline := true } : Line).line_type = lst.line_type := rfl
  have hsc : srcCnt (ch.lines.dropLast ++ [{ lst with is_no_newline := true }]) =
      srcCnt ch.lines := by
    rw [srcCnt_append, srcCnt_singleton, htype, ← srcCnt_singleton, ← srcCnt_append, hdec]
  have htc : tgtCnt (ch.lines.dropLast ++ [{ lst with is_no_newline := true }]) =
      tgtCnt ch.lines := by
    rw [tgtCnt_append, tgtCnt_singleton, htype, ← tgtCnt_singleton, ← tgtCnt_append, hdec]
  refine ⟨?_, ?_, ?_, ?_, ?_, hi.hdrSrcOk, hi.hdrTgtOk, ?_, hi.startPos⟩
  · show srcCnt _ + ch.remaining_source = ch.source_length
    rw [hsc]; exact hi.srcTotal
  · show tgtCnt _ + ch.remaining_target = ch.target_length
    rw [htc]; exact hi.tgtTotal
  · show linesNumbered ch.source_start ch.target_start
      (ch.lines.dropLast ++ [{ lst with is_no_newline := true }])
    have h0 : linesNumbered ch.source_start ch.target_start (ch.lines.dropLast ++ [lst]) := by
      rw [hdec]; exact hi.numbered
    rw [linesNumbered_append] at h0 ⊢
    refine ⟨h0.1, ?_, trivial⟩
    have := h0.2.1
    exact (lineAt_setFlag _ _ lst true).mpr this
  · show ch.next_source = ch.source_start + srcCnt _
    rw [hsc]; exact hi.nextSrc
  · show ch.next_target = ch.target_start + tgtCnt _
    rw [htc]; exact hi.nextTgt
  · show noAmb (ch.lines.dropLast ++ [{ lst with is_no_newline := true }])
    have h0 : noAmb (ch.lines.dropLast ++ [lst]) := by
      rw [hdec]; exact hi.amb
    rw [noAmb, List.chain'_append] at h0 ⊢
    refine ⟨h0.1, List.chain'_singleton _, ?_⟩
    intro x hx y hy
    simp only [List.head?_cons, Option.mem_def, Option.some.injEq] at hy
    subst hy
    rintro ⟨hhx, hhy⟩
    rw [hazTgt_setFlag] at hhy
    exact h0.2.2 x hx lst (by simp) ⟨hhx, hhy⟩

theorem parseHunkHeader_error_msg (l : List Char) (k : ErrKind) (m : List Char)
    (h : parseHunkHeader l = .error (k, m)) : k = .MalformedHunkHeader ∧ m ≠ [] := by
  unfold parseHunkHeader at h
  repeat' split at h
  all_goals cases h
  all_goals exact ⟨rfl, by decide⟩

theorem step1_ok_inv (l : List Char) (n : Nat) (st st' : BState)
    (hok : step1 l n st = .ok st') (hst : StInv st) (hn : 1 ≤ n) (hp : PendHead st l) :
    StInv st' := by
  cases st with
  | expectFile =>
    simp only [step1] at hok
    cases hok
    trivial
  | inFile cf =>
    simp only [step1] at hok
    split at hok
    · split at hok
      · cases hok
      · rename_i hh hph
        cases hok
        exact ⟨hst, openHunk_inv hh n hn (parseHunkHeader_ok_consistent l hh hph).1
          (parseHunkHeader_ok_consistent l hh hph).2⟩
    · cases hok
      exact hst
  | inHunk cf ch =>
    obtain ⟨hcf, hch⟩ := hst
    simp only [step1] at hok
    split at hok
    · split at hok
      · rename_i hzero
        split at hok
        · cases hok
        · rename_i hh hph
          cases hok
          refine ⟨CFInv_addHunk cf ch hcf (closeHunk_inv ch hch hzero.1 hzero.2), ?_⟩
          exact openHunk_inv hh n hn (parseHunkHeader_ok_consistent l hh hph).1
            (parseHunkHeader_ok_consistent l hh hph).2
      · cases hok
    · split at hok
      · rename_i hmk
        split at hok
        · cases hok
        · rename_i lst hlast
          cases hok
          exact ⟨hcf, ChInv_setFlag ch lst hlast hch⟩
      · split at hok
        · cases hok
        · rename_i ty v hcl
          split at hok
          · rename_i hcnt
            cases hok
            refine ⟨hcf, ChInv_chAppend ch ty v hch hcnt.1 hcnt.2 ?_⟩
            intro x hx hhx
            have htl : isTgtHdr l = false := hp ⟨x, hx, hhx⟩
            cases ty with
            | context => simp [hazTgt, builtLine, Line.is_added]
            | removed => simp [hazTgt, builtLine, Line.is_added]
            | added =>
              have hl : l = '+' :: v := classifyLine_eq_ok l .added v hcl
              rw [hl, isTgtHdr_plus] at htl
              simp [hazTgt, builtLine, Line.is_added, htl]
          · cases hok

theorem step1_ok_pend (l l2 : List Char) (n : Nat) (st st' : BState)
    (hok : step1 l n st = .ok st') (hp : PendHead st l)
    (hnp : isSrcHdr l = true → isTgtHdr l2 = false) : PendHead st' l2 := by
  cases st with
  | expectFile =>
    simp only [step1] at hok
    cases hok
    trivial
  | inFile cf =>
    simp only [step1] at hok
    split at hok
    · split at hok
      · cases hok
      · cases hok
        intro hlh
        obtain ⟨x, hx, -⟩ := hlh
        simp [openHunk] at hx
    · cases hok
      trivial
  | inHunk cf ch =>
    simp only [step1] at hok
    split at hok
    · split at hok
      · split at hok
        · cases hok
        · cases hok
          intro hlh
          obtain ⟨x, hx, -⟩ := hlh
          simp [openHunk] at hx
      · cases hok
    · split at hok
      · split at hok
        · cases hok
        · rename_i lst hlast
          cases hok
          intro hlh
          obtain ⟨x, hx, hhx⟩ := hlh
          rw [getLast?_snoc] at hx
          cases hx
          rw [hazSrc_setTrue] at hhx
          exact absurd hhx (by decide)
      · split at hok
        · cases hok
        · rename_i ty v hcl
          split at hok
          · cases hok
            intro hlh
            obtain ⟨x, hx, hhx⟩ := hlh
            rw [show (chAppend ch ty v).lines = ch.lines ++ [builtLine ch ty v] from rfl,
              getLast?_snoc] at hx
            cases hx
            have hty : ty = .removed := by
              have := builtLine_type ch ty v
              rcases ty with _ | _ | _ <;> simp_all [hazSrc, Line.is_removed, builtLine]
            subst hty
            have hv : valSrcish v = true := by
              simp [hazSrc, builtLine, Line.is_removed, valSrcish] at hhx
              simp [valSrcish, hhx]
            have hl : l = '-' :: v := classifyLine_eq_ok l .removed v hcl
            apply hnp
            rw [hl, isSrcHdr_dash]
            exact hv
          · cases hok

theorem step1_err (l : List Char) (n : Nat) (st : BState) (e : ParseError)
    (h : step1 l n st = .error e) (hst : StInv st) (hn : 1 ≤ n) :
    1 ≤ e.line_number ∧ e.message ≠ [] := by
  cases st with
  | expectFile => simp only [step1] at h; cases h
  | inFile cf =>
    simp only [step1] at h
    split at h
    · split at h
      · rename_i k m hpe
        cases h
        obtain ⟨-, hm⟩ := parseHunkHeader_error_msg l k m hpe
        exact ⟨hn, hm⟩
      · cases h
    · cases h
  | inHunk cf ch =>
    obtain ⟨-, hch⟩ := hst
    simp only [step1] at h
    split at h
    · split at h
      · split at h
        · rename_i k m hpe
          cases h
          obtain ⟨-, hm⟩ := parseHunkHeader_error_msg l k m hpe
          exact ⟨hn, hm⟩
        · cases h
      · cases h
        exact ⟨hch.startPos, by simp⟩
    · split at h
      · split at h
        · cases h
          exact ⟨hn, by simp⟩
        · cases h
      · split at h
        · cases h
          exact ⟨hn, by simp⟩
        · split at h
          · cases h
          · cases h
            exact ⟨hn, by simp⟩

/-! ### Unfolding lemmas for `build`, and `fileStep`/`finish` specifications -/

theorem build_nil (n : Nat) (acc : List PatchedFile) (st : BState) :
    build [] n acc st = finish acc st := rfl

theorem build_cons_step (l : List Char) (rest : List (List Char)) (n : Nat)
    (acc : List PatchedFile) (st : BState)
    (hnp : ∀ l2, rest.head? = some l2 → ¬(isSrcHdr l = true ∧ isTgtHdr l2 = true)) :
    build (l :: rest) n acc st =
      match step1 l n st with
      | .error e => .error e
      | .ok st' => build rest (n + 1) acc st' := by
  cases rest with
  | nil => rfl
  | cons l2 r =>
    have hc : (isSrcHdr l && isTgtHdr l2) = false := by
      rcases h1 : isSrcHdr l with _ | _
      · simp
      · rcases h2 : isTgtHdr l2 with _ | _
        · simp
        · exact absurd ⟨h1, h2⟩ (hnp l2 rfl)
    simp only [build, hc, Bool.false_eq_true, if_false]

theorem build_cons_pair (l1 l2 : List Char) (rest : List (List Char)) (n : Nat)
    (acc : List PatchedFile) (st : BState)
    (h1 : isSrcHdr l1 = true) (h2 : isTgtHdr l2 = true) :
    build (l1 :: l2 :: rest) n acc st =
      match fileStep (hdrPath l1) (hdrPath l2) acc st with
      | .error e => .error e
      | .ok (acc', st') => build rest (n + 2) acc' st' := by
  simp only [build, h1, h2, Bool.and_self, if_true]

theorem PSInv_snoc (acc : List PatchedFile) (f : PatchedFile)
    (hacc : PSInv acc) (hf : FileInv f) : PSInv (acc ++ [f]) := by
  intro g hg
  rcases List.mem_append.mp hg with hg | hg
  · exact hacc g hg
  · rw [List.mem_singleton] at hg
    subst hg
    exact hf

theorem FileInv_closeFile (cf : CurFile) (hcf : CFInv cf) : FileInv (closeFile cf) :=
  ⟨rfl, hcf⟩

theorem fileStep_ok (src tgt : List Char) (acc : List PatchedFile) (st : BState)
    (acc' : List PatchedFile) (st' : BState)
    (h : fileStep src tgt acc st = .ok (acc', st'))
    (hacc : PSInv acc) (hst : StInv st) :
    PSInv acc' ∧ StInv st' ∧ ∀ l, PendHead st' l := by
  cases st with
  | expectFile =>
    cases h
    exact ⟨hacc, by intro h hm; simp [newFile] at hm, fun _ => trivial⟩
  | inFile cf =>
    cases h
    refine ⟨PSInv_snoc acc (closeFile cf) hacc (FileInv_closeFile cf hst), ?_, fun _ => trivial⟩
    intro h hm; simp [newFile] at hm
  | inHunk cf ch =>
    obtain ⟨hcf, hch⟩ := hst
    simp only [fileStep] at h
    split at h
    · rename_i hzero
      cases h
      refine ⟨?_, ?_, fun _ => trivial⟩
      · exact PSInv_snoc acc _ hacc
          (FileInv_closeFile _ (CFInv_addHunk cf ch hcf (closeHunk_inv ch hch hzero.1 hzero.2)))
      · intro h hm; simp [newFile] at hm
    · cases h

theorem fileStep_err (src tgt : List Char) (acc : List PatchedFile) (st : BState)
    (e : ParseError) (h : fileStep src tgt acc st = .error e) (hst : StInv st) :
    1 ≤ e.line_number ∧ e.message ≠ [] := by
  cases st with
  | expectFile => cases h
  | inFile cf => cases h
  | inHunk cf ch =>
    obtain ⟨-, hch⟩ := hst
    simp only [fileStep] at h
    split at h
    · cases h
    · cases h
      exact ⟨hch.startPos, by simp⟩

theorem finish_ok (acc : List PatchedFile) (st : BState) (ps : PatchSet)
    (h : finish acc st = .ok ps) (hacc : PSInv acc) (hst : StInv st) : PSInv ps := by
  cases st with
  | expectFile => cases h; exact hacc
  | inFile cf =>
    cases h
    exact PSInv_snoc acc _ hacc (FileInv_closeFile cf hst)
  | inHunk cf ch =>
    obtain ⟨hcf, hch⟩ := hst
    simp only [finish] at h
    split at h
    · rename_i hzero
      cases h
      exact PSInv_snoc acc _ hacc
        (FileInv_closeFile _ (CFInv_addHunk cf ch hcf (closeHunk_inv ch hch hzero.1 hzero.2)))
    · cases h

theorem finish_err (acc : List PatchedFile) (st : BState) (e : ParseError)
    (h : finish acc st = .error e) (hst : StInv st) :
    1 ≤ e.line_number ∧ e.message ≠ [] := by
  cases st with
  | expectFile => cases h
  | inFile cf => cases h
  | inHunk cf ch =>
    obtain ⟨-, hch⟩ := hst
    simp only [finish] at h
    split at h
    · cases h
    · cases h
      exact ⟨hch.startPos, by simp⟩

/-! ### The master invariant of the Patch Builder -/

/-- Running the builder from an invariant-respecting configuration either
produces a fully valid PatchSet or an error carrying a 1-based line number
and a nonempty message (sections 4.4, 7). -/
theorem build_inv : ∀ (k : Nat) (lines : List (List Char)), lines.length ≤ k →
    ∀ (n : Nat) (acc : List PatchedFile) (st : BState),
    1 ≤ n → PSInv acc → StInv st → PendOk st lines →
    (∀ ps, build lines n acc st = .ok ps → PSInv ps) ∧
    (∀ e, build lines n acc st = .error e → 1 ≤ e.line_number ∧ e.message ≠ []) := by
  intro k
  induction k with
  | zero =>
    intro lines hlen n acc st hn hacc hst _
    have : lines = [] := List.length_eq_zero.mp (Nat.le_zero.mp hlen)
    subst this
    rw [build_nil]
    exact ⟨fun ps hps => finish_ok acc st ps hps hacc hst,
      fun e he => finish_err acc st e he hst⟩
  | succ k ih =>
    intro lines hlen n acc st hn hacc hst hpend
    cases lines with
    | nil =>
      rw [build_nil]
      exact ⟨fun ps hps => finish_ok acc st ps hps hacc hst,
        fun e he => finish_err acc st e he hst⟩
    | cons l1 rest =>
      by_cases hpair : ∃ l2 r, rest = l2 :: r ∧ isSrcHdr l1 = true ∧ isTgtHdr l2 = true
      · obtain ⟨l2, r, rfl, h1, h2⟩ := hpair
        rw [build_cons_pair l1 l2 r n acc st h1 h2]
        rcases hfs : fileStep (hdrPath l1) (hdrPath l2) acc st with e | ⟨acc', st'⟩
        · obtain ⟨he1, he2⟩ := fileStep_err _ _ acc st e hfs hst
          exact ⟨fun ps hps => by simp at hps, fun e' he' => by
            simp only at he'
            cases he'
            exact ⟨he1, he2⟩⟩
        · obtain ⟨hacc', hst', hpend'⟩ := fileStep_ok _ _ acc st acc' st' hfs hacc hst
          have hlen' : r.length ≤ k := by simp at hlen; omega
          have := ih r hlen' (n + 2) acc' st' (by omega) hacc' hst' (fun l _ => hpend' l)
          simpa using this
      · have hnp : ∀ l2, rest.head? = some l2 → ¬(isSrcHdr l1 = true ∧ isTgtHdr l2 = true) := by
          rintro l2 hl2 ⟨h1, h2⟩
          cases rest with
          | nil => simp at hl2
          | cons a r =>
            simp only [List.head?_cons, Option.some.injEq] at hl2
            subst hl2
            exact hpair ⟨a, r, rfl, h1, h2⟩
        rw [build_cons_step l1 rest n acc st hnp]
        rcases hs1 : step1 l1 n st with e | st'
        · obtain ⟨he1, he2⟩ := step1_err l1 n st e hs1 hst hn
          exact ⟨fun ps hps => by simp at hps, fun e' he' => by
            simp only at he'
            cases he'
            exact ⟨he1, he2⟩⟩
        · have hst' : StInv st' := step1_ok_inv l1 n st st' hs1 hst hn (hpend l1 rfl)
          have hpend' : PendOk st' rest := by
            intro l2 hl2
            refine step1_ok_pend l1 l2 n st st' hs1 (hpend l1 rfl) ?_
            intro hsr
            rcases h2 : isTgtHdr l2 with _ | _
            · rfl
            · exact absurd ⟨hsr, h2⟩ (hnp l2 hl2)
          have hlen' : rest.length ≤ k := by simp at hlen; omega
          have := ih rest hlen' (n + 1) acc st' (by omega) hacc hst' hpend'
          simpa using this

/-- `parse` never yields an invalid model: every success satisfies all the
structural invariants, every failure carries position and message. -/
theorem parse_inv (input : List (List Char)) :
    (∀ ps, parse input = .ok ps → PSInv ps) ∧
    (∀ e, parse input = .error e → 1 ≤ e.line_number ∧ e.message ≠ []) := by
  have := build_inv input.length input (Nat.le_refl _) 1 [] .expectFile
    (Nat.le_refl 1) (by intro f hf; simp at hf) trivial (by intro l _; trivial)
  exact this

/-! ### Decimal representation: parsing the serializer's own numerals -/

theorem digitChar_isDig (m : Nat) (h : m < 10) : isDig (digitChar m) = true := by
  interval_cases m <;> decide

theorem digitChar_val (m : Nat) (h : m < 10) : (digitChar m).toNat - 48 = m := by
  interval_cases m <;> decide

theorem digitsValFrom_append (i : Nat) (a b : List Char) :
    digitsValFrom i (a ++ b) = digitsValFrom (digitsValFrom i a) b := by
  induction a generalizing i with
  | nil => rfl
  | cons c cs ih => exact ih (10 * i + (c.toNat - 48))

theorem natReprGo_spec : ∀ (n : Nat), ∀ (fuel : Nat) (acc : List Char), n ≤ fuel →
    ∃ ds, natReprGo fuel n acc = ds ++ acc ∧ ds ≠ [] ∧ (∀ c ∈ ds, isDig c = true) ∧
      ∀ i, digitsValFrom i ds = i * 10 ^ ds.length + n := by
  intro n
  induction n using Nat.strong_induction_on with
  | _ n ih =>
    intro fuel acc hfuel
    by_cases h10 : n < 10
    · have hds : ∀ i, digitsValFrom i [digitChar n] = i * 10 ^ ([digitChar n]).length + n := by
        intro i
        show 10 * i + ((digitChar n).toNat - 48) = i * 10 ^ ([digitChar n]).length + n
        rw [digitChar_val n h10, List.length_singleton, pow_one]
        ring
      have hdig : ∀ c ∈ [digitChar n], isDig c = true := by
        intro c hc
        rw [List.mem_singleton] at hc
        subst hc
        exact digitChar_isDig n h10
      cases fuel with
      | zero => exact ⟨[digitChar n], rfl, by simp, hdig, hds⟩
      | succ f =>
        refine ⟨[digitChar n], ?_, by simp, hdig, hds⟩
        show (if n < 10 then digitChar n :: acc
          else natReprGo f (n / 10) (digitChar (n % 10) :: acc)) = [digitChar n] ++ acc
        rw [if_pos h10]
        rfl
    · have hn0 : 10 ≤ n := by omega
      cases fuel with
      | zero => omega
      | succ f =>
        have hlt : n / 10 < n := Nat.div_lt_self (by omega) (by omega)
        have hfl : n / 10 ≤ f := by omega
        obtain ⟨ds', heq, hne, hdig, hval⟩ := ih (n / 10) hlt f (digitChar (n % 10) :: acc) hfl
        have hm : n % 10 < 10 := Nat.mod_lt _ (by omega)
        refine ⟨ds' ++ [digitChar (n % 10)], ?_, by simp, ?_, ?_⟩
        · show (if n < 10 then digitChar n :: acc
            else natReprGo f (n / 10) (digitChar (n % 10) :: acc)) = (ds' ++ [digitChar (n % 10)]) ++ acc
          rw [if_neg h10, heq, List.append_assoc, List.singleton_append]
        · intro c hc
          rcases List.mem_append.mp hc with hc | hc
          · exact hdig c hc
          · rw [List.mem_singleton] at hc
            subst hc
            exact digitChar_isDig _ hm
        · intro i
          rw [digitsValFrom_append, hval i]
          have hstep : digitsValFrom (i * 10 ^ ds'.length + n / 10) [digitChar (n % 10)]
              = 10 * (i * 10 ^ ds'.length + n / 10) + n % 10 := by
            show 10 * (i * 10 ^ ds'.length + n / 10) + ((digitChar (n % 10)).toNat - 48) = _
            rw [digitChar_val _ hm]
          rw [hstep, List.length_append, List.length_singleton, pow_succ]
          have hdm := Nat.div_add_mod n 10
          calc 10 * (i * 10 ^ ds'.length + n / 10) + n % 10
              = i * (10 ^ ds'.length * 10) + (10 * (n / 10) + n % 10) := by ring
            _ = i * (10 ^ ds'.length * 10) + n := by rw [hdm]

theorem natRepr_ne_nil (n : Nat) : natRepr n ≠ [] := by
  obtain ⟨ds, heq, hne, -, -⟩ := natReprGo_spec n n [] (Nat.le_refl n)
  rw [natRepr, heq, List.append_nil]
  exact hne

theorem natRepr_digits (n : Nat) : ∀ c ∈ natRepr n, isDig c = true := by
  obtain ⟨ds, heq, -, hdig, -⟩ := natReprGo_spec n n [] (Nat.le_refl n)
  rw [natRepr, heq, List.append_nil]
  exact hdig

theorem digitsVal_natRepr (n : Nat) : digitsVal (natRepr n) = n := by
  obtain ⟨ds, heq, -, -, hval⟩ := natReprGo_spec n n [] (Nat.le_refl n)
  rw [natRepr, heq, List.append_nil, digitsVal, hval 0]
  ring

/-! ### `takeWhile`/`dropWhile` over digit blocks -/

theorem span_digits (ds r : List Char) (hds : ∀ c ∈ ds, isDig c = true)
    (hr : ∀ c, r.head? = some c → isDig c = false) :
    (ds ++ r).takeWhile isDig = ds ∧ (ds ++ r).dropWhile isDig = r := by
  induction ds with
  | nil =>
    simp only [List.nil_append]
    cases r with
    | nil => exact ⟨rfl, rfl⟩
    | cons c cs =>
      have := hr c rfl
      simp [List.takeWhile, List.dropWhile, this]
  | cons d ds ih =>
    have hd : isDig d = true := hds d (by simp)
    have ih' := ih (fun c hc => hds c (by simp [hc]))
    simp [List.takeWhile_cons, List.dropWhile_cons, hd, ih'.1, ih'.2]

theorem parseNum_spec (ds r : List Char)
    (h1 : ∀ c ∈ ds, isDig c = true) (hne : ds ≠ [])
    (hr : ∀ c, r.head? = some c → isDig c = false) :
    parseNum (ds ++ r) = some (digitsVal ds, r) := by
  have hsp := span_digits ds r h1 hr
  rw [parseNum, hsp.1, hsp.2, if_neg hne]

theorem parseRange_pair (ds1 ds2 r : List Char)
    (h1 : ∀ c ∈ ds1, isDig c = true) (hne1 : ds1 ≠ [])
    (h2 : ∀ c ∈ ds2, isDig c = true) (hne2 : ds2 ≠ [])
    (hr : ∀ c, r.head? = some c → isDig c = false) :
    parseRange (ds1 ++ ',' :: (ds2 ++ r)) = some (digitsVal ds1, digitsVal ds2, r) := by
  have e1 := parseNum_spec ds1 (',' :: (ds2 ++ r)) h1 hne1
    (by intro c hc; simp only [List.head?_cons, Option.some.injEq] at hc; subst hc; decide)
  have e2 := parseNum_spec ds2 r h2 hne2 hr
  rw [parseRange, e1]
  simp [e2]

theorem parseRange_single (ds r : List Char)
    (h1 : ∀ c ∈ ds, isDig c = true) (hne : ds ≠ [])
    (hr : ∀ c, r.head? = some c → isDig c = false ∧ c ≠ ',') :
    parseRange (ds ++ r) = some (digitsVal ds, 1, r) := by
  have e1 := parseNum_spec ds r h1 hne (fun c hc => (hr c hc).1)
  have hcomma : r.head? ≠ some ',' := by
    intro hc
    exact (hr ',' hc).2 rfl
  rw [parseRange, e1]
  simp [hcomma]

/-- Parsing a canonical serialized hunk header recovers its fields exactly
(the serializer's output is in the grammar of section 4.2). -/
theorem parseHunkHeader_mkHdrLine (ss sl ts tl : Nat) (sh : Option (List Char))
    (hc1 : ¬(0 < ss ∧ sl = 0)) (hc2 : ¬(0 < ts ∧ tl = 0)) :
    parseHunkHeader (mkHdrLine ss sl ts tl sh) = .ok ⟨ss, sl, ts, tl, sh⟩ := by
  have key : ∀ tail : List Char,
      parseHunkHeader ('@' :: '@' :: ' ' :: '-' ::
        (natRepr ss ++ ',' :: (natRepr sl ++
          ' ' :: '+' :: (natRepr ts ++ ',' :: (natRepr tl ++ ' ' :: '@' :: '@' :: tail))))) =
      (match tail with
       | [] => Except.ok ⟨ss, sl, ts, tl, none⟩
       | ' ' :: hdr => Except.ok ⟨ss, sl, ts, tl, some hdr⟩
       | _ => Except.error (.MalformedHunkHeader, ("junk after second marker").data)) := by
    intro tail
    have e1 := parseRange_pair (natRepr ss) (natRepr sl)
      (' ' :: '+' :: (natRepr ts ++ ',' :: (natRepr tl ++ ' ' :: '@' :: '@' :: tail)))
      (natRepr_digits ss) (natRepr_ne_nil ss) (natRepr_digits sl) (natRepr_ne_nil sl)
      (by intro c hc; simp only [List.head?_cons, Option.some.injEq] at hc; subst hc; decide)
    have e2 := parseRange_pair (natRepr ts) (natRepr tl) (' ' :: '@' :: '@' :: tail)
      (natRepr_digits ts) (natRepr_ne_nil ts) (natRepr_digits tl) (natRepr_ne_nil tl)
      (by intro c hc; simp only [List.head?_cons, Option.some.injEq] at hc; subst hc; decide)
    simp only [digitsVal_natRepr] at e1 e2
    rw [parseHunkHeader]
    simp [e1]
    rw [e2]
    simp [hc1, hc2]
  cases sh with
  | none => exact key []
  | some hdr => exact key (' ' :: hdr)

/-! ### Classification of serialized lines -/

theorem classifyLine_rawOf (l : Line) : classifyLine (rawOf l) = .ok (l.line_type, l.value) := by
  cases h : l.line_type <;> simp [rawOf, classifyLine, h]

theorem isHunkHdrLine_rawOf (l : Line) : isHunkHdrLine (rawOf l) = false := by
  cases h : l.line_type <;> simp only [rawOf, h] <;> exact isHunkHdrLine_body _ _ (by decide)

theorem rawOf_ne_marker (l : Line) : rawOf l ≠ noNewlineMarker := by
  cases h : l.line_type <;> simp only [rawOf, h]
  · exact marker_ne_space l.value
  · exact marker_ne_plus l.value
  · exact marker_ne_dash l.value

theorem isSrcHdr_rawOf (l : Line) :
    isSrcHdr (rawOf l) = (l.is_removed && valSrcish l.value) := by
  cases h : l.line_type <;>
    simp [rawOf, h, isSrcHdr_space, isSrcHdr_plus, isSrcHdr_dash, Line.is_removed]

theorem isTgtHdr_rawOf (l : Line) : isTgtHdr (rawOf l) = hazTgt l := by
  cases h : l.line_type <;>
    simp [rawOf, h, isTgtHdr_space, isTgtHdr_dash, isTgtHdr_plus, hazTgt, Line.is_added]

theorem hazSrc_eq_rawOf (l : Line) :
    hazSrc l = (isSrcHdr (rawOf l) && !l.is_no_newline) := by
  rw [isSrcHdr_rawOf, hazSrc, Bool.and_assoc]

theorem isHunkHdrLine_mkHdrLine (ss sl ts tl : Nat) (sh : Option (List Char)) :
    isHunkHdrLine (mkHdrLine ss sl ts tl sh) = true := isHunkHdrLine_cons3 _

theorem isSrcHdr_mkHdrLine (ss sl ts tl : Nat) (sh : Option (List Char)) :
    isSrcHdr (mkHdrLine ss sl ts tl sh) = false := isSrcHdr_hdrLine _

theorem isTgtHdr_mkHdrLine (ss sl ts tl : Nat) (sh : Option (List Char)) :
    isTgtHdr (mkHdrLine ss sl ts tl sh) = false := isTgtHdr_cons_ne _ _ (by decide)

/-! ### Round trip: the builder consumes its own serialization -/

theorem dropLast_snoc {α : Type} (xs : List α) (x : α) : (xs ++ [x]).dropLast = xs :=
  List.dropLast_concat

/-- The in-progress hunk after consuming a block of body lines. -/
def chConsume (ch : CurHunk) (ls : List Line) : CurHunk :=
  { ch with
    lines := ch.lines ++ ls,
    remaining_source := ch.remaining_source - srcCnt ls,
    remaining_target := ch.remaining_target - tgtCnt ls,
    next_source := ch.next_source + srcCnt ls,
    next_target := ch.next_target + tgtCnt ls }

theorem chConsume_nil (ch : CurHunk) : chConsume ch [] = ch := by
  cases ch
  simp [chConsume, srcCnt, tgtCnt, ctxCount, addCount, remCount]

theorem builtLine_eq (ch : CurHunk) (l : Line)
    (hl : lineAt ch.next_source ch.next_target l) :
    builtLine ch l.line_type l.value = { l with is_no_newline := false } := by
  cases l with
  | mk v ty sn tn fl =>
    cases ty <;>
      (obtain ⟨e1, e2⟩ := hl; simp only [builtLine]; rw [← e1, ← e2])

theorem step1_body (l : Line) (n : Nat) (cf : CurFile) (ch : CurHunk)
    (hcond : srcStep l.line_type ≤ ch.remaining_source ∧
      tgtStep l.line_type ≤ ch.remaining_target) :
    step1 (rawOf l) n (.inHunk cf ch) = .ok (.inHunk cf (chAppend ch l.line_type l.value)) := by
  simp only [step1, isHunkHdrLine_rawOf, Bool.false_eq_true, if_false]
  rw [if_neg (rawOf_ne_marker l), classifyLine_rawOf]
  simp only [if_pos hcond]

theorem step1_marker (n : Nat) (cf : CurFile) (ch : CurHunk) (lst : Line)
    (hlast : ch.lines.getLast? = some lst) :
    step1 noNewlineMarker n (.inHunk cf ch) = .ok (.inHunk cf
      { ch with lines := ch.lines.dropLast ++ [{ lst with is_no_newline := true }] }) := by
  simp only [step1, isHunkHdrLine_marker, Bool.false_eq_true, if_false]
  rw [if_pos trivial, hlast]

theorem RT_body : ∀ (ls : List Line) (ch : CurHunk) (cf : CurFile)
    (suffix : List (List Char)) (n : Nat) (acc : List PatchedFile),
    ch.remaining_source = srcCnt ls →
    ch.remaining_target = tgtCnt ls →
    linesNumbered ch.next_source ch.next_target ls →
    noAmb ls →
    (∀ l2, suffix.head? = some l2 → isTgtHdr l2 = false) →
    ∃ n', build ((ls.map serializeLine).flatten ++ suffix) n acc (.inHunk cf ch) =
      build suffix n' acc (.inHunk cf (chConsume ch ls)) := by
  intro ls
  induction ls with
  | nil =>
    intro ch cf suffix n acc h1 h2 h3 h4 h5
    exact ⟨n, by rw [chConsume_nil]; simp⟩
  | cons l ls' ih =>
    intro ch cf suffix n acc h1 h2 h3 h4 h5
    obtain ⟨hl, hrest⟩ := h3
    rw [srcCnt_cons] at h1
    rw [tgtCnt_cons] at h2
    have hcond : srcStep l.line_type ≤ ch.remaining_source ∧
        tgtStep l.line_type ≤ ch.remaining_target := by omega
    have hbuilt := builtLine_eq ch l hl
    -- the state after appending the body line for `l`
    have hch1 : chAppend ch l.line_type l.value =
        { ch with
          lines := ch.lines ++ [{ l with is_no_newline := false }],
          remaining_source := ch.remaining_source - srcStep l.line_type,
          remaining_target := ch.remaining_target - tgtStep l.line_type,
          next_source := ch.next_source + srcStep l.line_type,
          next_target := ch.next_target + tgtStep l.line_type } := by
      rw [chAppend, hbuilt]
    -- IH-packaged continuation from the post-`l` state
    have hcont : ∀ (chs : CurHunk), chs =
        { ch with
          lines := ch.lines ++ [l],
          remaining_source := ch.remaining_source - srcStep l.line_type,
          remaining_target := ch.remaining_target - tgtStep l.line_type,
          next_source := ch.next_source + srcStep l.line_type,
          next_target := ch.next_target + tgtStep l.line_type } →
        ∀ (m : Nat), ∃ n', build ((ls'.map serializeLine).flatten ++ suffix) m acc
          (.inHunk cf chs) = build suffix n' acc (.inHunk cf (chConsume ch (l :: ls'))) := by
      intro chs hchs m
      have h1' : chs.remaining_source = srcCnt ls' := by rw [hchs]; simp; omega
      have h2' : chs.remaining_target = tgtCnt ls' := by rw [hchs]; simp; omega
      have h3' : linesNumbered chs.next_source chs.next_target ls' := by
        rw [hchs]; exact hrest
      have h4' : noAmb ls' := h4.tail
      obtain ⟨n', hbm⟩ := ih chs cf suffix m acc h1' h2' h3' h4' h5
      refine ⟨n', ?_⟩
      rw [hbm]
      have hcc : chConsume chs ls' = chConsume ch (l :: ls') := by
        subst hchs
        cases ch
        simp only [chConsume, srcCnt_cons, tgtCnt_cons]
        congr 1 <;> first
          | omega
          | simp [List.append_assoc]
      rw [hcc]
    rcases hfl : l.is_no_newline with _ | _
    · -- no marker after this line
      have hstream : ((l :: ls').map serializeLine).flatten ++ suffix
          = rawOf l :: ((ls'.map serializeLine).flatten ++ suffix) := by
        simp [serializeLine, hfl]
      rw [hstream]
      have hnp : ∀ l2, ((ls'.map serializeLine).flatten ++ suffix).head? = some l2 →
          ¬(isSrcHdr (rawOf l) = true ∧ isTgtHdr l2 = true) := by
        rintro l2 hl2 ⟨hs, ht⟩
        rw [isSrcHdr_rawOf] at hs
        cases ls' with
        | nil =>
          simp only [List.map_nil, List.flatten_nil, List.nil_append] at hl2
          rw [h5 l2 hl2] at ht
          exact absurd ht (by decide)
        | cons l2' rest' =>
          have hhd : (((l2' :: rest').map serializeLine).flatten ++ suffix).head?
              = some (rawOf l2') := by
            simp [serializeLine]
          rw [hhd] at hl2
          cases hl2
          rw [isTgtHdr_rawOf] at ht
          have hchain := (List.chain'_cons'.mp h4).1 l2' (by simp)
          apply hchain
          refine ⟨?_, ht⟩
          have he : hazSrc l = (l.is_removed && valSrcish l.value && !l.is_no_newline) := rfl
          rw [he, hfl, hs]
          rfl
      rw [build_cons_step _ _ n acc _ hnp, step1_body l n cf ch hcond]
      refine hcont (chAppend ch l.line_type l.value) ?_ (n + 1)
      rw [hch1]
      have hid : ({ l with is_no_newline := false } : Line) = l := by
        cases l
        simp only at hfl
        rw [hfl]
      rw [hid]
    · -- marker follows this line
      have hstream : ((l :: ls').map serializeLine).flatten ++ suffix
          = rawOf l :: noNewlineMarker :: ((ls'.map serializeLine).flatten ++ suffix) := by
        simp [serializeLine, hfl]
      rw [hstream]
      have hnp1 : ∀ l2,
          (noNewlineMarker :: ((ls'.map serializeLine).flatten ++ suffix)).head? = some l2 →
          ¬(isSrcHdr (rawOf l) = true ∧ isTgtHdr l2 = true) := by
        rintro l2 hl2 ⟨-, ht⟩
        simp only [List.head?_cons, Option.some.injEq] at hl2
        subst hl2
        rw [isTgtHdr_marker] at ht
        exact absurd ht (by decide)
      rw [build_cons_step _ _ n acc _ hnp1, step1_body l n cf ch hcond]
      show ∃ n', build (noNewlineMarker :: ((ls'.map serializeLine).flatten ++ suffix)) (n + 1)
        acc (.inHunk cf (chAppend ch l.line_type l.value)) =
        build suffix n' acc (.inHunk cf (chConsume ch (l :: ls')))
      have hnp2 : ∀ l2, ((ls'.map serializeLine).flatten ++ suffix).head? = some l2 →
          ¬(isSrcHdr noNewlineMarker = true ∧ isTgtHdr l2 = true) := by
        rintro l2 hl2 ⟨hs, -⟩
        rw [isSrcHdr_marker] at hs
        exact absurd hs (by decide)
      have hlast : (chAppend ch l.line_type l.value).lines.getLast?
          = some ({ l with is_no_newline := false }) := by
        rw [hch1]
        exact getLast?_snoc _ _
      rw [build_cons_step _ _ (n + 1) acc _ hnp2,
        step1_marker (n + 1) cf (chAppend ch l.line_type l.value) _ hlast]
      refine hcont _ ?_ (n + 2)
      rw [hch1]
      have hlines : ((ch.lines ++ [{ l with is_no_newline := false }]).dropLast ++
          [{ ({ l with is_no_newline := false } : Line) with is_no_newline := true }])
          = ch.lines ++ [l] := by
        rw [dropLast_snoc]
        have : ({ ({ l with is_no_newline := false } : Line) with is_no_newline := true })
            = l := by
          cases l
          simp only at hfl
          rw [hfl]
        rw [this]
      simp only []
      rw [hlines]

/-- States from which the next structural token sees `cf` as the open file. -/
def readyFor (cf : CurFile) : BState → Prop
  | .expectFile => False
  | .inFile cf' => cf' = cf
  | .inHunk cf' ch => addHunk cf' ch = cf ∧ ch.remaining_source = 0 ∧ ch.remaining_target = 0

theorem step1_hdr_ready (cf : CurFile) (st : BState) (hready : readyFor cf st)
    (l : List Char) (hh : HunkHdr) (hhl : isHunkHdrLine l = true)
    (hph : parseHunkHeader l = .ok hh) (n : Nat) :
    step1 l n st = .ok (.inHunk cf (openHunk hh n)) := by
  cases st with
  | expectFile => exact absurd hready (by simp [readyFor])
  | inFile cf' =>
    have : cf' = cf := hready
    subst this
    simp only [step1, hhl, if_true, hph]
  | inHunk cf' ch =>
    obtain ⟨hadd, hz1, hz2⟩ := hready
    simp only [step1, hhl, if_true, if_pos (And.intro hz1 hz2), hph, hadd]

theorem RT_hunk (h : Hunk) (cf : CurFile) (st : BState) (suffix : List (List Char))
    (n : Nat) (acc : List PatchedFile)
    (hready : readyFor cf st) (hinv : HunkInv h)
    (hsfx : ∀ l2, suffix.head? = some l2 → isTgtHdr l2 = false) :
    ∃ n' st', build (serializeHunk h ++ suffix) n acc st = build suffix n' acc st' ∧
      readyFor { cf with hunks := cf.hunks ++ [h] } st' := by
  have hsl : ctxCount h.lines + remCount h.lines = h.source_length := hinv.srcLen
  have htl : ctxCount h.lines + addCount h.lines = h.target_length := hinv.tgtLen
  have hc1 : ¬(0 < h.source_start ∧ ctxCount h.lines + remCount h.lines = 0) := by
    rintro ⟨hp, hz⟩
    exact hinv.hdrSrcOk hp (by omega)
  have hc2 : ¬(0 < h.target_start ∧ ctxCount h.lines + addCount h.lines = 0) := by
    rintro ⟨hp, hz⟩
    exact hinv.hdrTgtOk hp (by omega)
  have hph : parseHunkHeader (hunkHdrLine h) =
      .ok ⟨h.source_start, ctxCount h.lines + remCount h.lines,
           h.target_start, ctxCount h.lines + addCount h.lines, h.section_header⟩ :=
    parseHunkHeader_mkHdrLine _ _ _ _ _ hc1 hc2
  have hstream : serializeHunk h ++ suffix
      = hunkHdrLine h :: ((h.lines.map serializeLine).flatten ++ suffix) := by
    simp [serializeHunk]
  rw [hstream]
  have hnp : ∀ l2, ((h.lines.map serializeLine).flatten ++ suffix).head? = some l2 →
      ¬(isSrcHdr (hunkHdrLine h) = true ∧ isTgtHdr l2 = true) := by
    rintro l2 - ⟨hs, -⟩
    rw [show hunkHdrLine h = mkHdrLine h.source_start (ctxCount h.lines + remCount h.lines)
      h.target_start (ctxCount h.lines + addCount h.lines) h.section_header from rfl,
      isSrcHdr_mkHdrLine] at hs
    exact absurd hs (by decide)
  rw [build_cons_step _ _ n acc _ hnp,
    step1_hdr_ready cf st hready (hunkHdrLine h) _ (isHunkHdrLine_cons3 _) hph n]
  set hh : HunkHdr := ⟨h.source_start, ctxCount h.lines + remCount h.lines,
    h.target_start, ctxCount h.lines + addCount h.lines, h.section_header⟩ with hhdef
  obtain ⟨n', hb⟩ := RT_body h.lines (openHunk hh n) cf suffix (n + 1) acc
    (by simp [openHunk, hhdef, srcCnt]) (by simp [openHunk, hhdef, tgtCnt])
    (by simpa [openHunk, hhdef] using hinv.numbered) hinv.amb hsfx
  refine ⟨n', .inHunk cf (chConsume (openHunk hh n) h.lines), hb, ?_, ?_, ?_⟩
  · show addHunk cf (chConsume (openHunk hh n) h.lines) = _
    have hclose : closeHunk (chConsume (openHunk hh n) h.lines) = h := by
      cases h with
      | mk ss sl ts tl sh ls =>
        simp only [closeHunk, chConsume, openHunk, hhdef, List.nil_append]
        simp only at hsl htl
        rw [hsl, htl]
    rw [addHunk, hclose]
  · show (chConsume (openHunk hh n) h.lines).remaining_source = 0
    simp [chConsume, openHunk, hhdef, srcCnt]
  · show (chConsume (openHunk hh n) h.lines).remaining_target = 0
    simp [chConsume, openHunk, hhdef, tgtCnt]

theorem RT_hunks : ∀ (hs : List Hunk) (cf : CurFile) (st : BState)
    (suffix : List (List Char)) (n : Nat) (acc : List PatchedFile),
    readyFor cf st → (∀ h ∈ hs, HunkInv h) →
    (∀ l2, suffix.head? = some l2 → isTgtHdr l2 = false) →
    ∃ n' st', build ((hs.map serializeHunk).flatten ++ suffix) n acc st
        = build suffix n' acc st' ∧
      readyFor { cf with hunks := cf.hunks ++ hs } st' := by
  intro hs
  induction hs with
  | nil =>
    intro cf st suffix n acc hready hinv hsfx
    refine ⟨n, st, by simp, ?_⟩
    have : ({ cf with hunks := cf.hunks ++ [] } : CurFile) = cf := by
      cases cf; simp
    rw [this]
    exact hready
  | cons h hs' ih =>
    intro cf st suffix n acc hready hinv hsfx
    have hstream : (((h :: hs').map serializeHunk).flatten ++ suffix)
        = serializeHunk h ++ ((hs'.map serializeHunk).flatten ++ suffix) := by
      simp
    rw [hstream]
    have hsfx' : ∀ l2, ((hs'.map serializeHunk).flatten ++ suffix).head? = some l2 →
        isTgtHdr l2 = false := by
      intro l2 hl2
      cases hs' with
      | nil =>
        simp only [List.map_nil, List.flatten_nil, List.nil_append] at hl2
        exact hsfx l2 hl2
      | cons h2 rest =>
        have : (((h2 :: rest).map serializeHunk).flatten ++ suffix).head?
            = some (hunkHdrLine h2) := by
          simp [serializeHunk]
        rw [this] at hl2
        cases hl2
        exact isTgtHdr_mkHdrLine _ _ _ _ _
    obtain ⟨n1, st1, hb1, hr1⟩ := RT_hunk h cf st _ n acc hready (hinv h (by simp)) hsfx'
    obtain ⟨n2, st2, hb2, hr2⟩ := ih { cf with hunks := cf.hunks ++ [h] } st1 suffix n1 acc
      hr1 (fun g hg => hinv g (by simp [hg])) hsfx
    refine ⟨n2, st2, by rw [hb1, hb2], ?_⟩
    have : ({ { cf with hunks := cf.hunks ++ [h] } with hunks := (cf.hunks ++ [h]) ++ hs' } :
        CurFile) = { cf with hunks := cf.hunks ++ (h :: hs') } := by
      cases cf; simp
    rw [← this]
    exact hr2

/-- What a structural close at the current state contributes to the output. -/
def flushSpec : BState → List PatchedFile → Prop
  | .expectFile, done => done = []
  | .inFile cf, done => done = [closeFile cf]
  | .inHunk cf ch, done =>
    ch.remaining_source = 0 ∧ ch.remaining_target = 0 ∧ done = [closeFile (addHunk cf ch)]

theorem readyFor_flushSpec (cf : CurFile) (st : BState) (h : readyFor cf st) :
    flushSpec st [closeFile cf] := by
  cases st with
  | expectFile => exact absurd h (by simp [readyFor])
  | inFile cf' =>
    rw [show cf' = cf from h]
    rfl
  | inHunk cf' ch =>
    obtain ⟨hadd, h1, h2⟩ := h
    exact ⟨h1, h2, by rw [hadd]⟩

theorem fileStep_flush (src tgt : List Char) (acc : List PatchedFile) (st : BState)
    (done : List PatchedFile) (hf : flushSpec st done) :
    fileStep src tgt acc st = .ok (acc ++ done, .inFile (newFile src tgt)) := by
  cases st with
  | expectFile => rw [show done = [] from hf]; simp [fileStep]
  | inFile cf => rw [show done = [closeFile cf] from hf]; simp [fileStep]
  | inHunk cf ch =>
    obtain ⟨h1, h2, h3⟩ := hf
    rw [h3]
    simp only [fileStep, if_pos (And.intro h1 h2)]

theorem finish_flush (acc : List PatchedFile) (st : BState) (done : List PatchedFile)
    (hf : flushSpec st done) : finish acc st = .ok (acc ++ done) := by
  cases st with
  | expectFile => rw [show done = [] from hf]; simp [finish]
  | inFile cf =>
    rw [show done = [closeFile cf] from hf]
    rfl
  | inHunk cf ch =>
    obtain ⟨h1, h2, h3⟩ := hf
    rw [h3]
    simp only [finish, if_pos (And.intro h1 h2)]

theorem hdrPath_cons4 (a b c d : Char) (p : List Char) :
    hdrPath (a :: b :: c :: d :: p) = p := rfl

theorem RT_files : ∀ (fs : List PatchedFile) (st : BState) (done acc : List PatchedFile)
    (n : Nat), flushSpec st done → (∀ f ∈ fs, FileInv f) →
    build ((fs.map serializeFile).flatten) n acc st = .ok (acc ++ done ++ fs) := by
  intro fs
  induction fs with
  | nil =>
    intro st done acc n hf hinv
    rw [List.map_nil, List.flatten_nil, build_nil, finish_flush acc st done hf]
    simp
  | cons f fs' ih =>
    intro st done acc n hf hinv
    have hstream : (((f :: fs').map serializeFile).flatten)
        = ('-' :: '-' :: '-' :: ' ' :: f.source_file) ::
          ('+' :: '+' :: '+' :: ' ' :: f.target_file) ::
          ((f.hunks.map serializeHunk).flatten ++ (fs'.map serializeFile).flatten) := by
      simp [serializeFile]
    rw [hstream, build_cons_pair _ _ _ n acc st (isSrcHdr_cons4 _) (isTgtHdr_cons4 _),
      fileStep_flush _ _ acc st done hf]
    have hsfx : ∀ l2, ((fs'.map serializeFile).flatten).head? = some l2 →
        isTgtHdr l2 = false := by
      intro l2 hl2
      cases fs' with
      | nil => simp at hl2
      | cons f2 rest =>
        have : (((f2 :: rest).map serializeFile).flatten).head?
            = some ('-' :: '-' :: '-' :: ' ' :: f2.source_file) := by
          simp [serializeFile]
        rw [this] at hl2
        cases hl2
        exact isTgtHdr_dash _
    obtain ⟨n1, st1, hb1, hr1⟩ := RT_hunks f.hunks
      (newFile (hdrPath ('-' :: '-' :: '-' :: ' ' :: f.source_file))
        (hdrPath ('+' :: '+' :: '+' :: ' ' :: f.target_file)))
      (.inFile (newFile _ _)) ((fs'.map serializeFile).flatten) (n + 2) (acc ++ done)
      rfl (fun h hh => (hinv f (by simp)).2 h hh) hsfx
    simp only [hdrPath_cons4] at hb1 hr1
    show build ((f.hunks.map serializeHunk).flatten ++ (fs'.map serializeFile).flatten) (n + 2)
      (acc ++ done) (.inFile (newFile f.source_file f.target_file))
      = .ok (acc ++ done ++ f :: fs')
    rw [hb1]
    have hcff : ({ newFile f.source_file f.target_file with
        hunks := (newFile f.source_file f.target_file).hunks ++ f.hunks } : CurFile)
        = ⟨f.source_file, f.target_file, f.hunks⟩ := by
      simp [newFile]
    rw [hcff] at hr1
    have hclose : closeFile ⟨f.source_file, f.target_file, f.hunks⟩ = f := by
      have hbin : f.is_binary_file = false := (hinv f (by simp)).1
      cases f
      simp only at hbin
      rw [closeFile, hbin]
    have := ih st1 [closeFile ⟨f.source_file, f.target_file, f.hunks⟩] (acc ++ done) n1
      (readyFor_flushSpec _ st1 hr1) (fun g hg => hinv g (by simp [hg]))
    rw [hclose] at this
    rw [this]
    simp

/-- A fully valid PatchSet re-parses from its own serialization to exactly
itself: serializer output is canonical (section 4.6). -/
theorem serialize_roundtrip (ps : PatchSet) (hps : PSInv ps) :
    parse (serialize ps) = .ok ps := by
  have := RT_files ps .expectFile [] [] 1 rfl hps
  simpa [parse, serialize] using this

/-! ### Derived facts for the claims: line-number sequences, partitions -/

theorem lineAt_context (s t : Nat) (l : Line) (hty : l.line_type = .context) :
    lineAt s t l ↔ (l.source_line_no = some s ∧ l.target_line_no = some t) := by
  cases l with
  | mk v ty sn tn fl => cases hty; exact Iff.rfl

theorem lineAt_added (s t : Nat) (l : Line) (hty : l.line_type = .added) :
    lineAt s t l ↔ (l.source_line_no = none ∧ l.target_line_no = some t) := by
  cases l with
  | mk v ty sn tn fl => cases hty; exact Iff.rfl

theorem lineAt_removed (s t : Nat) (l : Line) (hty : l.line_type = .removed) :
    lineAt s t l ↔ (l.source_line_no = some s ∧ l.target_line_no = none) := by
  cases l with
  | mk v ty sn tn fl => cases hty; exact Iff.rfl

theorem range'_cons (s c : Nat) : List.range' s (c + 1) = s :: List.range' (s + 1) c := rfl

theorem linesNumbered_srcNos (ls : List Line) : ∀ (s t : Nat),
    linesNumbered s t ls →
    ls.filterMap Line.source_line_no = List.range' s (srcCnt ls) := by
  induction ls with
  | nil => intro s t _; rfl
  | cons l ls' ih =>
    intro s t h
    obtain ⟨hl, hrest⟩ := h
    rcases hty : l.line_type with _ | _ | _
    · obtain ⟨e1, e2⟩ := (lineAt_context s t l hty).mp hl
      rw [List.filterMap_cons, e1, srcCnt_cons, hty]
      show s :: List.filterMap Line.source_line_no ls' = List.range' s (srcStep .context + srcCnt ls')
      rw [ih (s + srcStep l.line_type) (t + tgtStep l.line_type) hrest, hty]
      show s :: List.range' (s + 1) (srcCnt ls') = List.range' s (1 + srcCnt ls')
      rw [Nat.add_comm 1 (srcCnt ls'), range'_cons]
    · obtain ⟨e1, e2⟩ := (lineAt_added s t l hty).mp hl
      rw [List.filterMap_cons, e1, srcCnt_cons, hty]
      show List.filterMap Line.source_line_no ls' = List.range' s (srcStep .added + srcCnt ls')
      rw [ih (s + srcStep l.line_type) (t + tgtStep l.line_type) hrest, hty]
      show List.range' (s + 0) (srcCnt ls') = List.range' s (0 + srcCnt ls')
      rw [Nat.add_zero, Nat.zero_add]
    · obtain ⟨e1, e2⟩ := (lineAt_removed s t l hty).mp hl
      rw [List.filterMap_cons, e1, srcCnt_cons, hty]
      show s :: List.filterMap Line.source_line_no ls' = List.range' s (srcStep .removed + srcCnt ls')
      rw [ih (s + srcStep l.line_type) (t + tgtStep l.line_type) hrest, hty]
      show s :: List.range' (s + 1) (srcCnt ls') = List.range' s (1 + srcCnt ls')
      rw [Nat.add_comm 1 (srcCnt ls'), range'_cons]

theorem linesNumbered_tgtNos (ls : List Line) : ∀ (s t : Nat),
    linesNumbered s t ls →
    ls.filterMap Line.target_line_no = List.range' t (tgtCnt ls) := by
  induction ls with
  | nil => intro s t _; rfl
  | cons l ls' ih =>
    intro s t h
    obtain ⟨hl, hrest⟩ := h
    rcases hty : l.line_type with _ | _ | _
    · obtain ⟨e1, e2⟩ := (lineAt_context s t l hty).mp hl
      rw [List.filterMap_cons, e2, tgtCnt_cons, hty]
      show t :: List.filterMap Line.target_line_no ls' = List.range' t (tgtStep .context + tgtCnt ls')
      rw [ih (s + srcStep l.line_type) (t + tgtStep l.line_type) hrest, hty]
      show t :: List.range' (t + 1) (tgtCnt ls') = List.range' t (1 + tgtCnt ls')
      rw [Nat.add_comm 1 (tgtCnt ls'), range'_cons]
    · obtain ⟨e1, e2⟩ := (lineAt_added s t l hty).mp hl
      rw [List.filterMap_cons, e2, tgtCnt_cons, hty]
      show t :: List.filterMap Line.target_line_no ls' = List.range' t (tgtStep .added + tgtCnt ls')
      rw [ih (s + srcStep l.line_type) (t + tgtStep l.line_type) hrest, hty]
      show t :: List.range' (t + 1) (tgtCnt ls') = List.range' t (1 + tgtCnt ls')
      rw [Nat.add_comm 1 (tgtCnt ls'), range'_cons]
    · obtain ⟨e1, e2⟩ := (lineAt_removed s t l hty).mp hl
      rw [List.filterMap_cons, e2, tgtCnt_cons, hty]
      show List.filterMap Line.target_line_no ls' = List.range' t (tgtStep .removed + tgtCnt ls')
      rw [ih (s + srcStep l.line_type) (t + tgtStep l.line_type) hrest, hty]
      show List.range' (t + 0) (tgtCnt ls') = List.range' t (0 + tgtCnt ls')
      rw [Nat.add_zero, Nat.zero_add]

theorem linesNumbered_absent (ls : List Line) : ∀ (s t : Nat),
    linesNumbered s t ls →
    ∀ l ∈ ls, (l.is_added = true → l.source_line_no = none) ∧
      (l.is_removed = true → l.target_line_no = none) ∧
      ((l.is_context = true ∨ l.is_removed = true) → l.source_line_no ≠ none) ∧
      ((l.is_context = true ∨ l.is_added = true) → l.target_line_no ≠ none) := by
  induction ls with
  | nil => intro s t _ l hl; simp at hl
  | cons x ls' ih =>
    intro s t h l hl
    obtain ⟨hx, hrest⟩ := h
    rcases List.mem_cons.mp hl with heq | hl
    · subst heq
      rcases hty : l.line_type with _ | _ | _
      · obtain ⟨e1, e2⟩ := (lineAt_context s t l hty).mp hx
        refine ⟨?_, ?_, ?_, ?_⟩ <;>
          simp [Line.is_added, Line.is_removed, Line.is_context, hty, e1, e2]
      · obtain ⟨e1, e2⟩ := (lineAt_added s t l hty).mp hx
        refine ⟨?_, ?_, ?_, ?_⟩ <;>
          simp [Line.is_added, Line.is_removed, Line.is_context, hty, e1, e2]
      · obtain ⟨e1, e2⟩ := (lineAt_removed s t l hty).mp hx
        refine ⟨?_, ?_, ?_, ?_⟩ <;>
          simp [Line.is_added, Line.is_removed, Line.is_context, hty, e1, e2]
    · exact ih _ _ hrest l hl

theorem chain'_lt_range' (c : Nat) : ∀ (s : Nat), List.Chain' (· < ·) (List.range' s c) := by
  induction c with
  | zero => intro s; simp
  | succ c ih =>
    intro s
    rw [range'_cons]
    rcases c with _ | c
    · simp
    · rw [range'_cons]
      exact List.Chain'.cons (by omega) (by rw [← range'_cons]; exact ih (s + 1))

theorem head?_range' (s c : Nat) :
    (List.range' s c).head? = if c = 0 then none else some s := by
  cases c with
  | zero => rfl
  | succ c => rw [range'_cons]; simp

theorem counts_partition (ls : List Line) :
    ctxCount ls + addCount ls + remCount ls = ls.length := by
  induction ls with
  | nil => rfl
  | cons l ls' ih =>
    simp only [ctxCount, addCount, remCount] at ih ⊢
    rcases hty : l.line_type with _ | _ | _ <;>
      simp only [List.filter_cons, Line.is_context, Line.is_added, Line.is_removed, hty,
        List.length_cons] <;>
      simp <;> omega

/-! ### The model equivalence of section 4.6 -/

/-- Same line content, type and no-newline marker (section 4.6). -/
def LineEquiv (a b : Line) : Prop :=
  a.value = b.value ∧ a.line_type = b.line_type ∧ a.is_no_newline = b.is_no_newline

/-- Same hunk boundaries and equivalent lines (section 4.6). -/
def HunkEquiv (a b : Hunk) : Prop :=
  a.source_start = b.source_start ∧ a.source_length = b.source_length ∧
  a.target_start = b.target_start ∧ a.target_length = b.target_length ∧
  a.section_header = b.section_header ∧ List.Forall₂ LineEquiv a.lines b.lines

/-- Same file paths and flags, and equivalent hunks (section 4.6). -/
def FileEquiv (a b : PatchedFile) : Prop :=
  a.source_file = b.source_file ∧ a.target_file = b.target_file ∧
  a.is_added_file = b.is_added_file ∧ a.is_removed_file = b.is_removed_file ∧
  a.is_modified_file = b.is_modified_file ∧ a.is_binary_file = b.is_binary_file ∧
  List.Forall₂ HunkEquiv a.hunks b.hunks

/-- The model equivalence of section 4.6 for whole PatchSets. -/
def ModelEq (a b : PatchSet) : Prop := List.Forall₂ FileEquiv a b

theorem ModelEq_refl (ps : PatchSet) : ModelEq ps ps := by
  rw [ModelEq, List.forall₂_same]
  intro f _
  refine ⟨rfl, rfl, rfl, rfl, rfl, rfl, ?_⟩
  rw [List.forall₂_same]
  intro h _
  refine ⟨rfl, rfl, rfl, rfl, rfl, ?_⟩
  rw [List.forall₂_same]
  intro l _
  exact ⟨rfl, rfl, rfl⟩

/-! ### Hunk header grammar: behavior on general inputs (for claim C5) -/

theorem parseRange_none (r : List Char) (hr : ∀ c, r.head? = some c → isDig c = false) :
    parseRange r = none := by
  have hsp := span_digits [] r (by intro c hc; simp at hc) hr
  simp only [List.nil_append] at hsp
  have hpn : parseNum r = none := by
    rw [parseNum, hsp.1, if_pos rfl]
  rw [parseRange, hpn]

/-- A successful hunk-header parse implies the line began with the two `@@`
markers and the `-` sign (contrapositive of the section 4.2 failure rule). -/
theorem parseHunkHeader_shape (l : List Char) (hh : HunkHdr)
    (h : parseHunkHeader l = .ok hh) :
    l = '@' :: '@' :: ' ' :: '-' :: l.drop 4 := by
  unfold parseHunkHeader at h
  split at h
  · rfl
  · cases h

/-- Parsing `@@ -a +c @@` with the `,<len>` parts omitted yields length 1 on
both sides. -/
theorem parseHunkHeader_omitted (sa sc : List Char)
    (h1 : ∀ c ∈ sa, isDig c = true) (hne1 : sa ≠ [])
    (h2 : ∀ c ∈ sc, isDig c = true) (hne2 : sc ≠ []) :
    parseHunkHeader ('@' :: '@' :: ' ' :: '-' ::
        (sa ++ ' ' :: '+' :: (sc ++ [' ', '@', '@']))) =
      .ok ⟨digitsVal sa, 1, digitsVal sc, 1, none⟩ := by
  have e1 := parseRange_single sa (' ' :: '+' :: (sc ++ [' ', '@', '@'])) h1 hne1
    (by intro c hc; simp only [List.head?_cons, Option.some.injEq] at hc; subst hc; decide)
  have e2 := parseRange_single sc [' ', '@', '@'] h2 hne2
    (by intro c hc; simp only [List.head?_cons, Option.some.injEq] at hc; subst hc; decide)
  rw [parseHunkHeader]
  simp [e1]
  rw [e2]
  simp

/-- Parsing `@@ -a,0 +c @@` with `0 < a` fails: `start > 0` is inconsistent
with `length == 0` (section 4.2). -/
theorem parseHunkHeader_zeroLen (sa sc : List Char)
    (h1 : ∀ c ∈ sa, isDig c = true) (hne1 : sa ≠ [])
    (h2 : ∀ c ∈ sc, isDig c = true) (hne2 : sc ≠ [])
    (hpos : 0 < digitsVal sa) :
    parseHunkHeader ('@' :: '@' :: ' ' :: '-' ::
        (sa ++ ',' :: (['0'] ++ (' ' :: '+' :: (sc ++ [' ', '@', '@']))))) =
      .error (.MalformedHunkHeader, ("start inconsistent with zero length").data) := by
  have e1 := parseRange_pair sa ['0'] (' ' :: '+' :: (sc ++ [' ', '@', '@'])) h1 hne1
    (by intro c hc; simp at hc; subst hc; decide) (by simp)
    (by intro c hc; simp only [List.head?_cons, Option.some.injEq] at hc; subst hc; decide)
  have e2 := parseRange_single sc [' ', '@', '@'] h2 hne2
    (by intro c hc; simp only [List.head?_cons, Option.some.injEq] at hc; subst hc; decide)
  have hz : digitsVal ['0'] = 0 := by decide
  rw [hz] at e1
  simp only [List.singleton_append] at e1
  rw [parseHunkHeader]
  simp [e1]
  rw [e2]
  simp [hpos]

/-- A non-numeric source field fails the grammar (section 4.2). -/
theorem parseHunkHeader_nonNumeric (r : List Char)
    (hr : ∀ c, r.head? = some c → isDig c = false) :
    parseHunkHeader ('@' :: '@' :: ' ' :: '-' :: r) =
      .error (.MalformedHunkHeader, ("bad source range").data) := by
  rw [parseHunkHeader, parseRange_none r hr]

/-! ### Concrete example documents used by the claim witnesses -/

deriving instance DecidableEq for Except

/-- A small well-formed unified diff: one file, one hunk `@@ -1,2 +1,2 @@`
with one context, one removed and one added line. -/
def exInput : List (List Char) :=
  ["--- a/f.txt", "+++ b/f.txt", "@@ -1,2 +1,2 @@ sec", " ctx", "-old", "+new"].map String.data

/-- The Hunk `parse` builds from `exInput`. -/
def exHunk : Hunk :=
  ⟨1, 2, 1, 2, some (("sec").data),
   [⟨("ctx").data, .context, some 1, some 1, false⟩,
    ⟨("old").data, .removed, some 2, none, false⟩,
    ⟨("new").data, .added, none, some 2, false⟩]⟩

/-- The PatchedFile `parse` builds from `exInput`. -/
def exFile : PatchedFile := ⟨("a/f.txt").data, ("b/f.txt").data, false, [exHunk]⟩

/-- The PatchSet `parse` builds from `exInput`. -/
def exPS : PatchSet := [exFile]

/-- Scenario D of section 8: a hunk declared `@@ -1,2 +1,2 @@` (input line 3)
supplies one context line and is then interrupted by a file-header pair. -/
def scenDInput : List (List Char) :=
  ["--- a/x", "+++ b/x", "@@ -1,2 +1,2 @@", " c",
   "--- a/y", "+++ b/y", "@@ -1,1 +1,1 @@", " z"].map String.data

/-- A document ending mid-hunk: the hunk at input line 3 declares `-1,2 +1,2`
but only one context line arrives before end of input. -/
def eofInput : List (List Char) :=
  ["--- a/x", "+++ b/x", "@@ -1,2 +1,2 @@", " c"].map String.data

/-- A file open and a hunk at input line 3 with one context line taken and
one line still missing on each side (used to exercise the builder directly). -/
def c4cf : CurFile := ⟨("a/x").data, ("b/x").data, []⟩

/-- See `c4cf`: counters `remaining_source = remaining_target = 1`. -/
def c4ch : CurHunk :=
  ⟨1, 2, 1, 2, none, 3, 1, 1, 2, 2, [⟨("c").data, .context, some 1, some 1, false⟩]⟩

/-! ### The claims -/

/-- C1 — Round-trip stability: for every PatchSet `P` built by `parse`,
`parse (serialize P)` yields a PatchSet equal to `P` under the model
equivalence of section 4.6 (same file paths and flags, same hunk boundaries,
same line content, types and no-newline markers); moreover serializing the
reparsed model reproduces the serializer's output exactly. -/
theorem C1_roundtrip_stability (input : List (List Char)) (ps : PatchSet)
    (hps : parse input = .ok ps) :
    ∃ ps', parse (serialize ps) = .ok ps' ∧ ModelEq ps' ps ∧
      serialize ps' = serialize ps :=
  ⟨ps, serialize_roundtrip ps ((parse_inv input).1 ps hps), ModelEq_refl ps, rfl⟩

theorem C1_roundtrip_stability_witness :
    ∃ ps', parse (serialize exPS) = .ok ps' ∧ ModelEq ps' exPS ∧
      serialize ps' = serialize exPS :=
  C1_roundtrip_stability exInput exPS (by decide)

/-- C2 — Hunk length invariant: in every Hunk of a parsed PatchSet, context
plus removed line counts equal `source_length`, context plus added counts
equal `target_length`, and every line is counted exactly once (the no-newline
marker is not a Line of the model at all — it only sets `is_no_newline` on
the preceding line — so no line is counted twice toward either length). -/
theorem C2_hunk_length_invariant (input : List (List Char)) (ps : PatchSet)
    (f : PatchedFile) (h : Hunk) (hps : parse input = .ok ps)
    (hf : f ∈ ps) (hh : h ∈ f.hunks) :
    ctxCount h.lines + remCount h.lines = h.source_length ∧
    ctxCount h.lines + addCount h.lines = h.target_length ∧
    ctxCount h.lines + addCount h.lines + remCount h.lines = h.lines.length := by
  have hinv := ((parse_inv input).1 ps hps f hf).2 h hh
  exact ⟨hinv.srcLen, hinv.tgtLen, counts_partition h.lines⟩

theorem C2_hunk_length_invariant_witness :
    ctxCount exHunk.lines + remCount exHunk.lines = exHunk.source_length ∧
    ctxCount exHunk.lines + addCount exHunk.lines = exHunk.target_length ∧
    ctxCount exHunk.lines + addCount exHunk.lines + remCount exHunk.lines =
      exHunk.lines.length :=
  C2_hunk_length_invariant exInput exPS exFile exHunk (by decide) (by decide) (by decide)

/-- C3 — Error atomicity of `parse`: on every input, either a fully valid
PatchSet is returned (all structural invariants of the model hold — never a
half-built model), or a `ParseError` carrying a kind, a 1-based line number
and a nonempty message. -/
theorem C3_error_atomicity (input : List (List Char)) :
    (∃ ps, parse input = .ok ps ∧ PSInv ps) ∨
    (∃ e, parse input = .error e ∧ 1 ≤ e.line_number ∧ e.message ≠ []) := by
  cases hp : parse input with
  | ok ps => exact Or.inl ⟨ps, rfl, (parse_inv input).1 ps hp⟩
  | error e => exact Or.inr ⟨e, rfl, (parse_inv input).2 e hp⟩

/-- C4 counterexample — the claim says end of input mid-hunk raises
`HunkLengthMismatch`; the model (following section 7, where a document ending
mid-hunk is `UnexpectedEndOfInput`) raises `UnexpectedEndOfInput` on a
concrete under-filled document, a different kind. -/
theorem C4_counterexample :
    parse eofInput = .error ⟨.UnexpectedEndOfInput, 3, ("document ends mid-hunk").data⟩ ∧
    ErrKind.UnexpectedEndOfInput ≠ ErrKind.HunkLengthMismatch :=
  ⟨by decide, by decide⟩

/-- C4 (amended) — a file-header token arriving while the builder is InHunk
with nonzero remaining counters fails with `HunkLengthMismatch` referencing
the hunk's start line number (Scenario D included: the `@@ -1,2 +1,2 @@` hunk
of `scenDInput` starts on input line 3); end of input mid-hunk instead fails
with `UnexpectedEndOfInput` per section 7, also referencing the hunk. -/
theorem C4_underfill_detection :
    (∀ (l1 l2 : List Char) (rest : List (List Char)) (n : Nat)
       (acc : List PatchedFile) (cf : CurFile) (ch : CurHunk),
       isSrcHdr l1 = true → isTgtHdr l2 = true →
       ¬(ch.remaining_source = 0 ∧ ch.remaining_target = 0) →
       build (l1 :: l2 :: rest) n acc (.inHunk cf ch) =
         .error ⟨.HunkLengthMismatch, ch.startLine,
           ("hunk under-filled at file header").data⟩) ∧
    (∀ (n : Nat) (acc : List PatchedFile) (cf : CurFile) (ch : CurHunk),
       ¬(ch.remaining_source = 0 ∧ ch.remaining_target = 0) →
       build [] n acc (.inHunk cf ch) =
         .error ⟨.UnexpectedEndOfInput, ch.startLine, ("document ends mid-hunk").data⟩) ∧
    parse scenDInput =
      .error ⟨.HunkLengthMismatch, 3, ("hunk under-filled at file header").data⟩ := by
  refine ⟨?_, ?_, by decide⟩
  · intro l1 l2 rest n acc cf ch h1 h2 hnz
    rw [build_cons_pair l1 l2 rest n acc _ h1 h2]
    simp only [fileStep, if_neg hnz]
  · intro n acc cf ch hnz
    rw [build_nil]
    simp only [finish, if_neg hnz]

theorem C4_underfill_detection_witness :
    build [("--- a/y").data, ("+++ b/y").data] 5 [] (.inHunk c4cf c4ch) =
      .error ⟨.HunkLengthMismatch, 3, ("hunk under-filled at file header").data⟩ ∧
    build [] 5 [] (.inHunk c4cf c4ch) =
      .error ⟨.UnexpectedEndOfInput, 3, ("document ends mid-hunk").data⟩ :=
  ⟨C4_underfill_detection.1 (("--- a/y").data) (("+++ b/y").data) [] 5 [] c4cf c4ch
      (by decide) (by decide) (by decide),
    C4_underfill_detection.2.1 5 [] c4cf c4ch (by decide)⟩

/-- C5 — Hunk header grammar: an omitted `,<len>` defaults that side's length
to 1 (for arbitrary digit strings); this is distinct from an explicit length
of 0 (explicit `,0` with a positive start is rejected as inconsistent, and at
start 0 the two parses differ: `-0,0` gives length 0, `-0` gives length 1);
parses succeed only on lines beginning with the `@@` markers and the `-`
sign; a non-numeric field fails; all failures carry `MalformedHunkHeader`. -/
theorem C5_header_grammar :
    (∀ sa sc : List Char, (∀ c ∈ sa, isDig c = true) → sa ≠ [] →
      (∀ c ∈ sc, isDig c = true) → sc ≠ [] →
      parseHunkHeader ('@' :: '@' :: ' ' :: '-' ::
          (sa ++ ' ' :: '+' :: (sc ++ [' ', '@', '@']))) =
        .ok ⟨digitsVal sa, 1, digitsVal sc, 1, none⟩) ∧
    (∀ sa sc : List Char, (∀ c ∈ sa, isDig c = true) → sa ≠ [] →
      (∀ c ∈ sc, isDig c = true) → sc ≠ [] → 0 < digitsVal sa →
      parseHunkHeader ('@' :: '@' :: ' ' :: '-' ::
          (sa ++ ',' :: (['0'] ++ (' ' :: '+' :: (sc ++ [' ', '@', '@']))))) =
        .error (.MalformedHunkHeader, ("start inconsistent with zero length").data)) ∧
    (parseHunkHeader (("@@ -0,0 +1,2 @@").data) = .ok ⟨0, 0, 1, 2, none⟩ ∧
     parseHunkHeader (("@@ -0 +1,2 @@").data) = .ok ⟨0, 1, 1, 2, none⟩) ∧
    (∀ (l : List Char) (hh : HunkHdr), parseHunkHeader l = .ok hh →
      l = '@' :: '@' :: ' ' :: '-' :: l.drop 4) ∧
    (∀ r : List Char, (∀ c, r.head? = some c → isDig c = false) →
      parseHunkHeader ('@' :: '@' :: ' ' :: '-' :: r) =
        .error (.MalformedHunkHeader, ("bad source range").data)) ∧
    (∀ (l : List Char) (k : ErrKind) (m : List Char),
      parseHunkHeader l = .error (k, m) → k = .MalformedHunkHeader) :=
  ⟨parseHunkHeader_omitted, parseHunkHeader_zeroLen,
   ⟨by decide, by decide⟩, parseHunkHeader_shape, parseHunkHeader_nonNumeric,
   fun l k m hp => (parseHunkHeader_error_msg l k m hp).1⟩

theorem C5_header_grammar_witness :
    parseHunkHeader ('@' :: '@' :: ' ' :: '-' ::
        ((['4'] : List Char) ++ ' ' :: '+' :: ((['7'] : List Char) ++ [' ', '@', '@']))) =
      .ok ⟨digitsVal ['4'], 1, digitsVal ['7'], 1, none⟩ ∧
    parseHunkHeader ('@' :: '@' :: ' ' :: '-' ::
        ((['4'] : List Char) ++ ',' :: (['0'] ++ (' ' :: '+' ::
          ((['7'] : List Char) ++ [' ', '@', '@']))))) =
      .error (.MalformedHunkHeader, ("start inconsistent with zero length").data) :=
  ⟨C5_header_grammar.1 ['4'] ['7'] (by decide) (by decide) (by decide) (by decide),
   C5_header_grammar.2.1 ['4'] ['7'] (by decide) (by decide) (by decide) (by decide)
     (by decide)⟩

/-- C6 — Line Classifier contract (section 4.1): a leading `' '`/`'+'`/`'-'`
classifies as context/added/removed with the prefix stripped; any other
leading character fails with `MalformedLine` (also at the builder level while
inside a hunk); and the no-newline marker line is never classified as a
content line — inside a hunk it only sets the flag of the most recently
appended line, leaving the line list's length unchanged. -/
theorem C6_line_classifier :
    (∀ v : List Char, classifyLine (' ' :: v) = .ok (.context, v)) ∧
    (∀ v : List Char, classifyLine ('+' :: v) = .ok (.added, v)) ∧
    (∀ v : List Char, classifyLine ('-' :: v) = .ok (.removed, v)) ∧
    (∀ (c : Char) (v : List Char), c ≠ ' ' → c ≠ '+' → c ≠ '-' →
      classifyLine (c :: v) = .error .MalformedLine) ∧
    (∀ (l : List Char) (n : Nat) (cf : CurFile) (ch : CurHunk),
      isHunkHdrLine l = false → l ≠ noNewlineMarker →
      classifyLine l = .error .MalformedLine →
      step1 l n (.inHunk cf ch) =
        .error ⟨.MalformedLine, n, ("unrecognized body line prefix").data⟩) ∧
    (∀ (n : Nat) (cf : CurFile) (ch : CurHunk) (lst : Line),
      ch.lines.getLast? = some lst →
      ∃ ch', step1 noNewlineMarker n (.inHunk cf ch) = .ok (.inHunk cf ch') ∧
        ch'.lines.length = ch.lines.length ∧
        ch'.remaining_source = ch.remaining_source ∧
        ch'.remaining_target = ch.remaining_target) := by
  refine ⟨fun v => by simp [classifyLine], fun v => by simp [classifyLine],
    fun v => by simp [classifyLine], fun c v h1 h2 h3 => by simp [classifyLine, h1, h2, h3],
    ?_, ?_⟩
  · intro l n cf ch hhl hmk hcl
    simp only [step1, hhl, Bool.false_eq_true, if_false]
    rw [if_neg hmk, hcl]
  · intro n cf ch lst hlast
    refine ⟨_, step1_marker n cf ch lst hlast, ?_, rfl, rfl⟩
    have hdec := List.dropLast_append_getLast? lst hlast
    calc (ch.lines.dropLast ++ [{ lst with is_no_newline := true }]).length
        = ch.lines.dropLast.length + 1 := by simp
      _ = (ch.lines.dropLast ++ [lst]).length := by simp
      _ = ch.lines.length := by rw [hdec]

theorem C6_line_classifier_witness :
    classifyLine (' ' :: ("v").data) = .ok (.context, ("v").data) ∧
    classifyLine ('@' :: ("v").data) = .error .MalformedLine ∧
    (∃ ch', step1 noNewlineMarker 9 (.inHunk c4cf c4ch) = .ok (.inHunk c4cf ch') ∧
      ch'.lines.length = c4ch.lines.length ∧
      ch'.remaining_source = c4ch.remaining_source ∧
      ch'.remaining_target = c4ch.remaining_target) :=
  ⟨C6_line_classifier.1 (("v").data),
   C6_line_classifier.2.2.2.1 '@' (("v").data) (by decide) (by decide) (by decide),
   C6_line_classifier.2.2.2.2.2 9 c4cf c4ch ⟨("c").data, .context, some 1, some 1, false⟩
     (by decide)⟩

/-- C7 — Derived counts: `PatchedFile.added` equals the sum over the file's
hunks of their added-line counts (and `removed` likewise); the accessors are
recomputed from `hunks` on access and are stored nowhere else, so two files
with the same hunks always report the same counts (no drift is possible). -/
theorem C7_derived_counts :
    (∀ f : PatchedFile,
      f.added = (f.hunks.map (fun h => (h.lines.filter Line.is_added).length)).sum ∧
      f.removed = (f.hunks.map (fun h => (h.lines.filter Line.is_removed).length)).sum) ∧
    (∀ f g : PatchedFile, f.hunks = g.hunks → f.added = g.added ∧ f.removed = g.removed) := by
  refine ⟨fun f => ⟨rfl, rfl⟩, fun f g hfg => ?_⟩
  rw [PatchedFile.added, PatchedFile.removed, PatchedFile.added, PatchedFile.removed, hfg]
  exact ⟨rfl, rfl⟩

theorem C7_derived_counts_witness :
    exFile.added = exFile.added ∧ exFile.removed = exFile.removed :=
  C7_derived_counts.2 exFile exFile rfl

/-- C8 — Line-number monotonicity: within every Hunk of a parsed PatchSet,
the `source_line_no` values present (exactly those of context/removed lines,
in line order) form the consecutive run starting at `source_start`, hence are
strictly increasing and start at `source_start`; likewise `target_line_no`
from `target_start`; `source_line_no` is absent exactly on added lines and
`target_line_no` exactly on removed lines. -/
theorem C8_line_number_monotonicity (input : List (List Char)) (ps : PatchSet)
    (f : PatchedFile) (h : Hunk) (hps : parse input = .ok ps)
    (hf : f ∈ ps) (hh : h ∈ f.hunks) :
    h.lines.filterMap Line.source_line_no =
      List.range' h.source_start (ctxCount h.lines + remCount h.lines) ∧
    h.lines.filterMap Line.target_line_no =
      List.range' h.target_start (ctxCount h.lines + addCount h.lines) ∧
    List.Chain' (· < ·) (h.lines.filterMap Line.source_line_no) ∧
    List.Chain' (· < ·) (h.lines.filterMap Line.target_line_no) ∧
    (h.lines.filterMap Line.source_line_no).head? =
      (if ctxCount h.lines + remCount h.lines = 0 then none else some h.source_start) ∧
    (h.lines.filterMap Line.target_line_no).head? =
      (if ctxCount h.lines + addCount h.lines = 0 then none else some h.target_start) ∧
    (∀ l ∈ h.lines, l.is_added = true → l.source_line_no = none) ∧
    (∀ l ∈ h.lines, l.is_removed = true → l.target_line_no = none) ∧
    (∀ l ∈ h.lines, (l.is_context = true ∨ l.is_removed = true) → l.source_line_no ≠ none) ∧
    (∀ l ∈ h.lines, (l.is_context = true ∨ l.is_added = true) → l.target_line_no ≠ none) := by
  have hinv := ((parse_inv input).1 ps hps f hf).2 h hh
  have hsrc := linesNumbered_srcNos h.lines h.source_start h.target_start hinv.numbered
  have htgt := linesNumbered_tgtNos h.lines h.source_start h.target_start hinv.numbered
  have habs := linesNumbered_absent h.lines h.source_start h.target_start hinv.numbered
  refine ⟨hsrc, htgt, ?_, ?_, ?_, ?_, ?_, ?_, ?_, ?_⟩
  · rw [hsrc]; exact chain'_lt_range' _ _
  · rw [htgt]; exact chain'_lt_range' _ _
  · rw [hsrc]; exact head?_range' _ _
  · rw [htgt]; exact head?_range' _ _
  · exact fun l hl => (habs l hl).1
  · exact fun l hl => (habs l hl).2.1
  · exact fun l hl => (habs l hl).2.2.1
  · exact fun l hl => (habs l hl).2.2.2

theorem C8_line_number_monotonicity_witness :
    exHunk.lines.filterMap Line.source_line_no =
      List.range' exHunk.source_start (ctxCount exHunk.lines + remCount exHunk.lines) ∧
    exHunk.lines.filterMap Line.target_line_no =
      List.range' exHunk.target_start (ctxCount exHunk.lines + addCount exHunk.lines) ∧
    List.Chain' (· < ·) (exHunk.lines.filterMap Line.source_line_no) ∧
    List.Chain' (· < ·) (exHunk.lines.filterMap Line.target_line_no) ∧
    (exHunk.lines.filterMap Line.source_line_no).head? =
      (if ctxCount exHunk.lines + remCount exHunk.lines = 0 then none
       else some exHunk.source_start) ∧
    (exHunk.lines.filterMap Line.target_line_no).head? =
      (if ctxCount exHunk.lines + addCount exHunk.lines = 0 then none
       else some exHunk.target_start) ∧
    (∀ l ∈ exHunk.lines, l.is_added = true → l.source_line_no = none) ∧
    (∀ l ∈ exHunk.lines, l.is_removed = true → l.target_line_no = none) ∧
    (∀ l ∈ exHunk.lines, (l.is_context = true ∨ l.is_removed = true) →
      l.source_line_no ≠ none) ∧
    (∀ l ∈ exHunk.lines, (l.is_context = true ∨ l.is_added = true) →
      l.target_line_no ≠ none) :=
  C8_line_number_monotonicity exInput exPS exFile exHunk (by decide) (by decide) (by decide)

/-- C9 — File-level classification exclusivity: for every non-binary
PatchedFile of a parsed PatchSet, no two of `is_added_file`,
`is_removed_file`, `is_modified_file` are simultaneously true. -/
theorem C9_classification_exclusivity (input : List (List Char)) (ps : PatchSet)
    (f : PatchedFile) (hps : parse input = .ok ps) (hf : f ∈ ps)
    (hbin : f.is_binary_file = false) :
    ¬(f.is_added_file = true ∧ f.is_removed_file = true) ∧
    ¬(f.is_added_file = true ∧ f.is_modified_file = true) ∧
    ¬(f.is_removed_file = true ∧ f.is_modified_file = true) := by
  refine ⟨?_, ?_, ?_⟩ <;>
    (rintro ⟨h1, h2⟩;
     simp only [PatchedFile.is_added_file, PatchedFile.is_removed_file,
       PatchedFile.is_modified_file, decide_eq_true_eq] at h1 h2 <;>
     tauto)

theorem C9_classification_exclusivity_witness :
    ¬(exFile.is_added_file = true ∧ exFile.is_removed_file = true) ∧
    ¬(exFile.is_added_file = true ∧ exFile.is_modified_file = true) ∧
    ¬(exFile.is_removed_file = true ∧ exFile.is_modified_file = true) :=
  C9_classification_exclusivity exInput exPS exFile (by decide) (by decide) (by decide)

/-- C10 — Per-line predicate exclusivity: for every Line (hence every line of
every Hunk of every parsed PatchSet), exactly one of `is_added`, `is_removed`,
`is_context` is true, so an if/elif dispatch on the three predicates covers
every line exactly once. -/
theorem C10_line_predicate_exclusivity (l : Line) :
    (l.is_added = true ∨ l.is_removed = true ∨ l.is_context = true) ∧
    ¬(l.is_added = true ∧ l.is_removed = true) ∧
    ¬(l.is_added = true ∧ l.is_context = true) ∧
    ¬(l.is_removed = true ∧ l.is_context = true) := by
  rcases hty : l.line_type with _ | _ | _ <;>
    simp [Line.is_added, Line.is_removed, Line.is_context, hty]

end Unidiff
